import Mathlib

/-!
# Delta-list scheduler (`scheduler.go`)

A shallow embedding of the `Scheduler` of `scheduler.go` and proofs about it.

* The `container/list` of `*Event` is a Lean `List Event`, front first.
  Every entry is a record of its own (no `*Event` is linked twice).
* `Delay` and `Repeat` are `int64` in the source. Here they are integers, and
  every subtraction the code does is reduced to the `int64` range by `wrap64`,
  as Go does on overflow. `InInt64` says that an integer is an `int64` value.
* `putTriggeredEventsToChannel` is a loop that need not terminate, so it takes
  a bound on the number of events it may send and answers `none` when the
  bound does not suffice.  The events sent on the channel, in order, are the
  first component of its result.
* `Exact.Queue`, `Exact.Tick` and `Exact.putTriggeredEventsToChannel` are the
  same functions with the subtractions done in the integers. They are a
  reference for the proofs: the code agrees with them whenever no subtraction
  overflows (`Queue_eq_exact`, `Tick_eq_exact`, `drain_eq_exact`).
-/

namespace SchedulerGo

/-- The `Event` record of `scheduler.go`; `What` is the raw payload bytes. -/
structure Event where
  Delay : Int
  Repeat : Int
  Name : String
  What : List UInt8
  deriving DecidableEq, Repr

/-- The state of a `Scheduler`: the entries of its `events` list, front first. -/
abbrev Scheduler := List Event

/-- `NewScheduler`: a scheduler with an empty list. -/
def NewScheduler : Scheduler := []

/-- Two's-complement reduction of an integer to the `int64` range: the value
Go's `int64` arithmetic gives for a result that is `x` in the integers. -/
def wrap64 (x : Int) : Int :=
  (x + 9223372036854775808) % 18446744073709551616 - 9223372036854775808

/-- The integer is an `int64` value. -/
def InInt64 (x : Int) : Prop := -9223372036854775808 ≤ x ∧ x < 9223372036854775808

instance (x : Int) : Decidable (InInt64 x) :=
  inferInstanceAs (Decidable (-9223372036854775808 ≤ x ∧ x < 9223372036854775808))

/-- The `Delay` and `Repeat` of the record are `int64` values. -/
def Event.IsInt64 (e : Event) : Prop := InInt64 e.Delay ∧ InInt64 e.Repeat

instance (e : Event) : Decidable e.IsInt64 :=
  inferInstanceAs (Decidable (InInt64 e.Delay ∧ InInt64 e.Repeat))

/-- `Scheduler.Queue`: walk from the front; at the first entry whose `Delay`
is strictly greater than the event's current `Delay`, lower that entry by the
event's `Delay` and link the event before it; otherwise lower the event by the
entry's `Delay` and go on; at the end of the list, push the event back. Both
subtractions are `int64` subtractions. -/
def Scheduler.Queue : Scheduler → Event → Scheduler
  | [], event => [event]
  | queued :: rest, event =>
    if queued.Delay > event.Delay then
      event :: { queued with Delay := wrap64 (queued.Delay - event.Delay) } :: rest
    else
      queued :: Scheduler.Queue rest { event with Delay := wrap64 (event.Delay - queued.Delay) }

/-- `Scheduler.Tick`: lower the front entry's `Delay` by `seconds`, an `int64`
subtraction, when the list is not empty. -/
def Scheduler.Tick : Scheduler → Int → Scheduler
  | [], _ => []
  | first :: rest, seconds => { first with Delay := wrap64 (first.Delay - seconds) } :: rest

/-- `Scheduler.putTriggeredEventsToChannel`: while the list has a front entry
whose `Delay` is not positive, send it, unlink it and, when its `Repeat` is not
zero, set its `Delay` to its `Repeat` and `Queue` it again.  The result is the
events sent, in order, and the scheduler left; `none` when more than `fuel`
events would be sent. -/
def Scheduler.putTriggeredEventsToChannel : Nat → Scheduler → Option (List Event × Scheduler)
  | _, [] => some ([], [])
  | 0, first :: rest => if first.Delay > 0 then some ([], first :: rest) else none
  | fuel + 1, first :: rest =>
    if first.Delay > 0 then some ([], first :: rest)
    else
      let events : Scheduler :=
        if first.Repeat ≠ 0 then Scheduler.Queue rest { first with Delay := first.Repeat }
        else rest
      match Scheduler.putTriggeredEventsToChannel fuel events with
      | none => none
      | some (sent, left) => some (first :: sent, left)

/-- The queue with every entry's `Delay` replaced by the sum of `Delay` from
the head through that entry, counted from `now`: the entry's absolute
remaining time. The sums are sums of integers. -/
def absolute : Int → List Event → List Event
  | _, [] => []
  | now, e :: rest => { e with Delay := now + e.Delay } :: absolute (now + e.Delay) rest

/-- The sum of `Delay` from the head through position `k`, in the integers. -/
def cumulativeDelay (q : List Event) (k : Nat) : Int :=
  ((q.take (k + 1)).map Event.Delay).sum

/-- An operation of a run: `Queue(event)`, `Tick(seconds)` or a drain. -/
inductive Op where
  | queue (event : Event)
  | tick (seconds : Int)
  | drain
  deriving DecidableEq, Repr

/-- Run a sequence of operations; every drain may send up to `fuel` events.
The result is the scheduler left and what each drain sent, in order. -/
def run (fuel : Nat) : List Op → Scheduler → Option (Scheduler × List (List Event))
  | [], s => some (s, [])
  | Op.queue event :: ops, s => run fuel ops (Scheduler.Queue s event)
  | Op.tick seconds :: ops, s => run fuel ops (Scheduler.Tick s seconds)
  | Op.drain :: ops, s =>
    match Scheduler.putTriggeredEventsToChannel fuel s with
    | none => none
    | some (sent, left) =>
      match run fuel ops left with
      | none => none
      | some (final, sents) => some (final, sent :: sents)

/-- No subtraction that `Queue(event)` does on this queue overflows `int64`:
each difference, taken in the integers, is an `int64` value. -/
def QueueNoOverflow : Scheduler → Event → Prop
  | [], _ => True
  | queued :: rest, event =>
    if queued.Delay > event.Delay then InInt64 (queued.Delay - event.Delay)
    else
      InInt64 (event.Delay - queued.Delay) ∧
        QueueNoOverflow rest { event with Delay := event.Delay - queued.Delay }

/-- `QueueNoOverflow` can be checked. -/
def QueueNoOverflow.dec : (q : Scheduler) → (event : Event) → Decidable (QueueNoOverflow q event)
  | [], _ => isTrue trivial
  | queued :: rest, event =>
    if h : queued.Delay > event.Delay then
      decidable_of_iff (InInt64 (queued.Delay - event.Delay)) (by simp [QueueNoOverflow, h])
    else
      have := QueueNoOverflow.dec rest { event with Delay := event.Delay - queued.Delay }
      decidable_of_iff
        (InInt64 (event.Delay - queued.Delay) ∧
          QueueNoOverflow rest { event with Delay := event.Delay - queued.Delay })
        (by simp [QueueNoOverflow, h])

instance (q : Scheduler) (event : Event) : Decidable (QueueNoOverflow q event) :=
  QueueNoOverflow.dec q event

/-- The subtraction that `Tick(seconds)` does on this queue does not overflow
`int64`. -/
def TickNoOverflow : Scheduler → Int → Prop
  | [], _ => True
  | first :: _, seconds => InInt64 (first.Delay - seconds)

instance (q : Scheduler) (seconds : Int) : Decidable (TickNoOverflow q seconds) := by
  cases q with
  | nil => exact isTrue trivial
  | cons first rest => exact inferInstanceAs (Decidable (InInt64 (first.Delay - seconds)))

/-- No `Queue` of the run overflows `int64` (a `Tick` may): `QueueNoOverflow`
holds for every `Queue` of the run, at the queue it is applied to. -/
def QueuesNoOverflow (fuel : Nat) : List Op → Scheduler → Prop
  | [], _ => True
  | Op.queue event :: ops, s =>
    QueueNoOverflow s event ∧ QueuesNoOverflow fuel ops (Scheduler.Queue s event)
  | Op.tick seconds :: ops, s => QueuesNoOverflow fuel ops (Scheduler.Tick s seconds)
  | Op.drain :: ops, s =>
    match Scheduler.putTriggeredEventsToChannel fuel s with
    | none => True
    | some (_, left) => QueuesNoOverflow fuel ops left

/-- `QueuesNoOverflow` can be checked. -/
def QueuesNoOverflow.dec (fuel : Nat) :
    (ops : List Op) → (s : Scheduler) → Decidable (QueuesNoOverflow fuel ops s)
  | [], _ => isTrue trivial
  | Op.queue event :: ops, s =>
    have := QueuesNoOverflow.dec fuel ops (Scheduler.Queue s event)
    decidable_of_iff
      (QueueNoOverflow s event ∧ QueuesNoOverflow fuel ops (Scheduler.Queue s event))
      (by simp [QueuesNoOverflow])
  | Op.tick seconds :: ops, s =>
    have := QueuesNoOverflow.dec fuel ops (Scheduler.Tick s seconds)
    decidable_of_iff (QueuesNoOverflow fuel ops (Scheduler.Tick s seconds))
      (by simp [QueuesNoOverflow])
  | Op.drain :: ops, s =>
    match h : Scheduler.putTriggeredEventsToChannel fuel s with
    | none => isTrue (by simp [QueuesNoOverflow, h])
    | some (_, left) =>
      have := QueuesNoOverflow.dec fuel ops left
      decidable_of_iff (QueuesNoOverflow fuel ops left) (by simp [QueuesNoOverflow, h])

instance (fuel : Nat) (ops : List Op) (s : Scheduler) :
    Decidable (QueuesNoOverflow fuel ops s) :=
  QueuesNoOverflow.dec fuel ops s

/-- A queue is due-free at the front: it is empty or its head has a positive `Delay`. -/
def NoneDue : Scheduler → Prop
  | [] => True
  | first :: _ => 0 < first.Delay

instance (q : Scheduler) : Decidable (NoneDue q) := by
  cases q with
  | nil => exact isTrue trivial
  | cons first rest => exact inferInstanceAs (Decidable (0 < first.Delay))

/-- The sign invariant: every entry other than the head has `Delay ≥ 0`. -/
def SignInv (q : Scheduler) : Prop := ∀ e ∈ q.tail, 0 ≤ e.Delay

instance (q : Scheduler) : Decidable (SignInv q) :=
  inferInstanceAs (Decidable (∀ e ∈ q.tail, 0 ≤ e.Delay))

/-- An entry is due when its stored `Delay` is not positive. -/
def due (e : Event) : Bool := decide (e.Delay ≤ 0)

/-- `Queue` with its subtractions done in the integers: what `Scheduler.Queue`
computes when none of its subtractions overflows. -/
def Exact.Queue : Scheduler → Event → Scheduler
  | [], event => [event]
  | queued :: rest, event =>
    if queued.Delay > event.Delay then
      event :: { queued with Delay := queued.Delay - event.Delay } :: rest
    else
      queued :: Exact.Queue rest { event with Delay := event.Delay - queued.Delay }

/-- `Tick` with its subtraction done in the integers. -/
def Exact.Tick : Scheduler → Int → Scheduler
  | [], _ => []
  | first :: rest, seconds => { first with Delay := first.Delay - seconds } :: rest

/-- The drain loop over `Exact.Queue`. -/
def Exact.putTriggeredEventsToChannel : Nat → Scheduler → Option (List Event × Scheduler)
  | _, [] => some ([], [])
  | 0, first :: rest => if first.Delay > 0 then some ([], first :: rest) else none
  | fuel + 1, first :: rest =>
    if first.Delay > 0 then some ([], first :: rest)
    else
      let events : Scheduler :=
        if first.Repeat ≠ 0 then Exact.Queue rest { first with Delay := first.Repeat }
        else rest
      match Exact.putTriggeredEventsToChannel fuel events with
      | none => none
      | some (sent, left) => some (first :: sent, left)

/-- What an exact drain makes of the undue rest `u` of the queue, given the
leading run `p` of due entries it sends: each one with a `Repeat` is queued
again, in turn, behind the due entries still ahead of it. -/
def requeueAll : List Event → Scheduler → Scheduler
  | [], u => u
  | h :: p, u =>
    requeueAll p
      (if h.Repeat ≠ 0 then
        Exact.Queue u { h with Delay := h.Repeat - (p.map Event.Delay).sum }
      else u)

/-- `SetUpQueue` of the tests: queue the events, in order, into a new scheduler. -/
def SetUpQueue (events : List Event) : Scheduler :=
  events.foldl Scheduler.Queue NewScheduler

/-- `SetUpQueue` over `Exact.Queue`. -/
def Exact.SetUpQueue (events : List Event) : Scheduler :=
  events.foldl Exact.Queue NewScheduler

/-- The cycle of `TestEventQueue`, "drain, then `Tick(1)`", started on `s`:
what drain number `t` sends and the scheduler after the `Tick(1)` that follows
it. Every drain may send up to `fuel` events. -/
def unitCycle (fuel : Nat) : Nat → Scheduler → Option (List Event × Scheduler)
  | 0, s =>
    match Scheduler.putTriggeredEventsToChannel fuel s with
    | none => none
    | some (sent, left) => some (sent, Scheduler.Tick left 1)
  | t + 1, s =>
    match Scheduler.putTriggeredEventsToChannel fuel s with
    | none => none
    | some (_, left) => unitCycle fuel t (Scheduler.Tick left 1)

/-- The unit cycle over the exact drain and `Exact.Tick`. -/
def Exact.unitCycle (fuel : Nat) : Nat → Scheduler → Option (List Event × Scheduler)
  | 0, s =>
    match Exact.putTriggeredEventsToChannel fuel s with
    | none => none
    | some (sent, left) => some (sent, Exact.Tick left 1)
  | t + 1, s =>
    match Exact.putTriggeredEventsToChannel fuel s with
    | none => none
    | some (_, left) => Exact.unitCycle fuel t (Exact.Tick left 1)

/-- The unit-tick schedule as the specification states it: an event queued
with `Delay` `d` and `Repeat` `R` is due in drain number `t` when `t = d`, or
`R > 0` and `t > d` and `t - d` is a multiple of `R`. -/
def scheduledAt (t : Nat) (e : Event) : Prop :=
  (t : Int) = e.Delay ∨ (0 < e.Repeat ∧ e.Delay < t ∧ e.Repeat ∣ (t : Int) - e.Delay)

instance (t : Nat) (e : Event) : Decidable (scheduledAt t e) :=
  inferInstanceAs (Decidable
    ((t : Int) = e.Delay ∨ (0 < e.Repeat ∧ e.Delay < t ∧ e.Repeat ∣ (t : Int) - e.Delay)))

/-- The time left, at the start of drain number `t` of the unit cycle, until
an event queued at the start next fires. -/
def remaining (t : Nat) (e : Event) : Int :=
  if (t : Int) ≤ e.Delay then e.Delay - t else (e.Delay - t) % e.Repeat

/-- The entry an event queued at the start stands for at the start of drain
number `t` of the unit cycle, in absolute time; `none` once it fired for good. -/
def stateAt (t : Nat) (e : Event) : Option Event :=
  if (t : Int) ≤ e.Delay ∨ 0 < e.Repeat then some { e with Delay := remaining t e } else none

/-- One round of the unit cycle on an entry in absolute time: an entry not
yet due comes one unit closer, a due one starts anew at its `Repeat` or, with
no `Repeat`, is gone. -/
def stepOne (x : Event) : Option Event :=
  if x.Delay ≠ 0 then some { x with Delay := x.Delay - 1 }
  else if x.Repeat ≠ 0 then some { x with Delay := x.Repeat - 1 }
  else none

/-- What `Queue`, `Tick` and the drain never write: `Repeat`, `Name`, `What`. -/
def Event.static (e : Event) : Int × String × List UInt8 := (e.Repeat, e.Name, e.What)

/-- Modelled from the spec: `Remove(name)`, which the tests call (`TestRemove`)
and `scheduler.go` does not define. "Remove the first entry (by queue order)
whose `Name` equals `name`. To preserve the delta invariant, the removed
entry's `Delay` must be added to its successor's `Delay` (if a successor
exists). If no entry matches, the operation is a silent no-op." -/
def Scheduler.Remove : Scheduler → String → Scheduler
  | [], _ => []
  | e :: rest, name =>
    if e.Name = name then
      match rest with
      | [] => []
      | next :: rest2 => { next with Delay := next.Delay + e.Delay } :: rest2
    else e :: Scheduler.Remove rest name

/-! ## The exact-arithmetic reference: `Queue` in absolute time -/

theorem absolute_length (q : List Event) : ∀ now, (absolute now q).length = q.length := by
  induction q with
  | nil => intro now; rfl
  | cons x rest ih => intro now; simp [absolute, ih]

/-- In absolute time `Queue` links the event, unchanged but for its `Delay`
made absolute, before the first entry that is strictly later, and changes no
other entry. -/
theorem absolute_Queue (q : Scheduler) : ∀ (now : Int) (e : Event),
    absolute now (Exact.Queue q e) =
      (absolute now q).takeWhile (fun x => decide (x.Delay ≤ now + e.Delay)) ++
        { e with Delay := now + e.Delay } ::
          (absolute now q).dropWhile (fun x => decide (x.Delay ≤ now + e.Delay)) := by
  induction q with
  | nil => intro now e; simp [Exact.Queue, absolute]
  | cons x rest ih =>
    intro now e
    by_cases h : x.Delay > e.Delay
    · have h1 : ¬ (now + x.Delay ≤ now + e.Delay) := by omega
      have h2 : now + e.Delay + (x.Delay - e.Delay) = now + x.Delay := by omega
      simp [Exact.Queue, absolute, h, List.takeWhile, List.dropWhile, h1, h2]
    · have h1 : now + x.Delay ≤ now + e.Delay := by omega
      have h2 : now + x.Delay + (e.Delay - x.Delay) = now + e.Delay := by omega
      have := ih (now + x.Delay) { e with Delay := e.Delay - x.Delay }
      simp only [h2] at this
      simp [Exact.Queue, absolute, h, List.takeWhile, List.dropWhile, h1, this]

/-- Shifting `now` shifts every absolute time by as much. -/
theorem absolute_shift (q : List Event) : ∀ (now c : Int),
    absolute (now + c) q = (absolute now q).map (fun e => { e with Delay := e.Delay + c }) := by
  induction q with
  | nil => intro now c; rfl
  | cons x rest ih =>
    intro now c
    have h : now + c + x.Delay = now + x.Delay + c := by omega
    simp [absolute, h, ih]

/-- The entry at position `k` of `absolute now q` is the entry at position `k`
of `q` with its `Delay` replaced by `now` plus the sum of `Delay` from the head
through position `k`. -/
theorem absolute_getElem? (q : List Event) : ∀ (now : Int) (k : Nat),
    (absolute now q)[k]? =
      q[k]?.map (fun e => { e with Delay := now + cumulativeDelay q k }) := by
  induction q with
  | nil => intro now k; simp [absolute]
  | cons x rest ih =>
    intro now k
    cases k with
    | zero => simp [absolute, cumulativeDelay]
    | succ k =>
      simp only [absolute, List.getElem?_cons_succ, ih]
      cases rest[k]? with
      | none => rfl
      | some y =>
        simp only [Option.map_some', cumulativeDelay, List.take_succ_cons, List.map_cons,
          List.sum_cons]
        congr 2
        omega

/-- In absolute time the queue after `Queue` is a permutation of the event
(at its input `Delay`) and the queue before. -/
theorem absolute_Queue_perm (q : Scheduler) (now : Int) (e : Event) :
    List.Perm (absolute now (Exact.Queue q e))
      ({ e with Delay := now + e.Delay } :: absolute now q) := by
  rw [absolute_Queue]
  refine List.perm_middle.trans (List.Perm.cons _ ?_)
  rw [List.takeWhile_append_dropWhile]

/-- Under the sign invariant absolute times do not decrease along the queue:
once an entry is later than `d`, so is every entry behind it. -/
theorem absolute_later_of_signInv (q : List Event) : ∀ (now d : Int),
    (∀ e ∈ q, 0 ≤ e.Delay) → d < now → ∀ x ∈ absolute now q, d < x.Delay := by
  induction q with
  | nil => intro now d _ _ x hx; simp [absolute] at hx
  | cons y rest ih =>
    intro now d hq hd x hx
    have hy : 0 ≤ y.Delay := hq y (List.mem_cons_self _ _)
    simp only [absolute, List.mem_cons] at hx
    rcases hx with rfl | hx
    · show d < now + y.Delay
      omega
    · exact ih (now + y.Delay) d (fun e he => hq e (List.mem_cons_of_mem _ he)) (by omega) x hx

theorem dropWhile_later_of_signInv (q : List Event) (d : Int) (hq : SignInv q) :
    ∀ x ∈ (absolute 0 q).dropWhile (fun x => decide (x.Delay ≤ d)), d < x.Delay := by
  suffices h : ∀ (l : List Event) (now : Int), (∀ e ∈ l.tail, 0 ≤ e.Delay) →
      ∀ x ∈ (absolute now l).dropWhile (fun x => decide (x.Delay ≤ d)), d < x.Delay from
    h q 0 hq
  intro l
  induction l with
  | nil => intro now _ x hx; simp [absolute] at hx
  | cons y rest ih =>
    intro now hl x hx
    simp only [absolute, List.dropWhile_cons] at hx
    by_cases hy : now + y.Delay ≤ d
    · simp only [hy, decide_True, if_true] at hx
      cases rest with
      | nil => simp [absolute] at hx
      | cons z rest2 =>
        refine ih (now + y.Delay) (fun e he => hl e ?_) x hx
        exact List.mem_cons_of_mem _ he
    · simp only [hy, decide_False] at hx
      have hlt : d < now + y.Delay := by omega
      have hall := absolute_later_of_signInv rest (now + y.Delay) d hl hlt
      simp only [Bool.false_eq_true, if_false, List.mem_cons] at hx
      rcases hx with rfl | hx
      · exact hlt
      · exact hall x hx

theorem takeWhile_all {α : Type} (p : α → Bool) (l : List α) :
    ∀ a ∈ l.takeWhile p, p a = true := by
  induction l with
  | nil => intro a ha; simp at ha
  | cons b l ih =>
    intro a ha
    by_cases h : p b
    · simp only [List.takeWhile_cons, h, if_true, List.mem_cons] at ha
      rcases ha with rfl | ha
      · exact h
      · exact ih a ha
    · simp [List.takeWhile_cons, h] at ha

theorem takeWhile_dropWhile_nil {α : Type} (p : α → Bool) (l : List α) :
    (l.dropWhile p).takeWhile p = [] := by
  induction l with
  | nil => rfl
  | cons a l ih =>
    by_cases h : p a
    · simp [List.dropWhile_cons, h, ih]
    · simp [List.dropWhile_cons, h, List.takeWhile_cons]

theorem dropWhile_dropWhile {α : Type} (p : α → Bool) (l : List α) :
    (l.dropWhile p).dropWhile p = l.dropWhile p := by
  induction l with
  | nil => rfl
  | cons a l ih =>
    by_cases h : p a
    · simp [List.dropWhile_cons, h, ih]
    · simp [List.dropWhile_cons, h]

/-- In absolute time `Tick(n)` lowers every entry by `n`. -/
theorem absolute_Tick (q : Scheduler) (n : Int) :
    absolute 0 (Exact.Tick q n) =
      (absolute 0 q).map (fun e => { e with Delay := e.Delay - n }) := by
  cases q with
  | nil => rfl
  | cons first rest =>
    have h := absolute_shift rest (0 + first.Delay) (-n)
    have h1 : (0 : Int) + first.Delay + -n = 0 + (first.Delay - n) := by omega
    rw [h1] at h
    simp only [Exact.Tick, absolute, List.map_cons, h]
    simp [Int.sub_eq_add_neg]

/-- In exact arithmetic `Queue(e)` links `e`, in absolute time, immediately
before the first entry whose cumulative delay is strictly greater than the
input `Delay`; under the sign invariant every entry behind `e` is strictly
later; and a second event with the same `Delay` lands right behind the first. -/
theorem exact_Queue_strict_tie_break (q : Scheduler) (e : Event) :
    absolute 0 (Exact.Queue q e) =
        (absolute 0 q).takeWhile (fun x => decide (x.Delay ≤ e.Delay)) ++
          e :: (absolute 0 q).dropWhile (fun x => decide (x.Delay ≤ e.Delay)) ∧
      (SignInv q →
        ∀ x ∈ (absolute 0 q).dropWhile (fun x => decide (x.Delay ≤ e.Delay)),
          e.Delay < x.Delay) ∧
      (∀ e2 : Event, e2.Delay = e.Delay →
        absolute 0 (Exact.Queue (Exact.Queue q e) e2) =
          (absolute 0 q).takeWhile (fun x => decide (x.Delay ≤ e.Delay)) ++
            e :: e2 :: (absolute 0 q).dropWhile (fun x => decide (x.Delay ≤ e.Delay))) := by
  have key : ∀ (s : Scheduler) (a : Event), absolute 0 (Exact.Queue s a) =
      (absolute 0 s).takeWhile (fun x => decide (x.Delay ≤ a.Delay)) ++
        a :: (absolute 0 s).dropWhile (fun x => decide (x.Delay ≤ a.Delay)) := by
    intro s a
    have h := absolute_Queue s 0 a
    have ha : ({ a with Delay := 0 + a.Delay } : Event) = a := by simp
    rw [ha] at h
    simpa using h
  refine ⟨key q e, dropWhile_later_of_signInv q e.Delay, ?_⟩
  intro e2 h2
  rw [key (Exact.Queue q e) e2, key q e, h2]
  have hpre := takeWhile_all (fun x : Event => decide (x.Delay ≤ e.Delay)) (absolute 0 q)
  rw [List.takeWhile_append_of_pos hpre, List.dropWhile_append_of_pos hpre]
  simp [List.takeWhile_cons, List.dropWhile_cons, takeWhile_dropWhile_nil, dropWhile_dropWhile]

/-! ## The exact-arithmetic reference: the drain loop -/

theorem drain_noneDue (fuel : Nat) (q : Scheduler) (h : NoneDue q) :
    Exact.putTriggeredEventsToChannel fuel q = some ([], q) := by
  cases q with
  | nil => cases fuel <;> rfl
  | cons first rest =>
    have h0 : first.Delay > 0 := h
    cases fuel <;> simp [Exact.putTriggeredEventsToChannel, h0]

theorem noneDue_of_drain : ∀ (fuel : Nat) (q : Scheduler) (sent : List Event) (left : Scheduler),
    Exact.putTriggeredEventsToChannel fuel q = some (sent, left) → NoneDue left := by
  intro fuel
  induction fuel with
  | zero =>
    intro q sent left h
    cases q with
    | nil =>
      simp only [Exact.putTriggeredEventsToChannel, Option.some.injEq, Prod.mk.injEq] at h
      rw [← h.2]; trivial
    | cons first rest =>
      by_cases h0 : first.Delay > 0
      · simp only [Exact.putTriggeredEventsToChannel, h0, if_true, Option.some.injEq,
          Prod.mk.injEq] at h
        rw [← h.2]; exact h0
      · simp [Exact.putTriggeredEventsToChannel, h0] at h
  | succ fuel ih =>
    intro q sent left h
    cases q with
    | nil =>
      simp only [Exact.putTriggeredEventsToChannel, Option.some.injEq, Prod.mk.injEq] at h
      rw [← h.2]; trivial
    | cons first rest =>
      by_cases h0 : first.Delay > 0
      · simp only [Exact.putTriggeredEventsToChannel, h0, if_true, Option.some.injEq,
          Prod.mk.injEq] at h
        rw [← h.2]; exact h0
      · simp only [Exact.putTriggeredEventsToChannel, h0, if_false] at h
        split at h
        · exact absurd h (by simp)
        · rename_i sent2 left2 heq
          simp only [Option.some.injEq, Prod.mk.injEq] at h
          rw [← h.2]
          exact ih _ _ _ heq

theorem Queue_append_due (p : List Event) (u : Scheduler) : ∀ e : Event,
    (∀ x ∈ p, x.Delay ≤ 0) → 0 < e.Delay →
      Exact.Queue (p ++ u) e =
        p ++ Exact.Queue u { e with Delay := e.Delay - (p.map Event.Delay).sum } := by
  induction p with
  | nil => intro e _ _; simp
  | cons x p ih =>
    intro e hp he
    have hx : x.Delay ≤ 0 := hp x (List.mem_cons_self _ _)
    have h1 : ¬ (x.Delay > e.Delay) := by omega
    have h2 := ih { e with Delay := e.Delay - x.Delay }
      (fun y hy => hp y (List.mem_cons_of_mem _ hy)) (by show 0 < e.Delay - x.Delay; omega)
    have h3 : e.Delay - x.Delay - (p.map Event.Delay).sum
        = e.Delay - (x.Delay + (p.map Event.Delay).sum) := by omega
    dsimp only at h2
    rw [h3] at h2
    simp only [List.cons_append, Exact.Queue, h1, if_false, List.append_eq, h2, List.map_cons,
      List.sum_cons]

theorem sum_due_nonpos (p : List Event) (hp : ∀ x ∈ p, x.Delay ≤ 0) :
    (p.map Event.Delay).sum ≤ 0 := by
  induction p with
  | nil => simp
  | cons x p ih =>
    have hx := hp x (List.mem_cons_self _ _)
    have := ih (fun y hy => hp y (List.mem_cons_of_mem _ hy))
    simp only [List.map_cons, List.sum_cons]
    omega

theorem Queue_noneDue (u : Scheduler) (e : Event) (hu : NoneDue u) (he : 0 < e.Delay) :
    NoneDue (Exact.Queue u e) := by
  cases u with
  | nil => exact he
  | cons x rest =>
    have hx : 0 < x.Delay := hu
    by_cases h : x.Delay > e.Delay
    · simp only [Exact.Queue, h, if_true]; exact he
    · simp only [Exact.Queue, h, if_false]; exact hx

/-- A drain of a queue that starts with the due entries `p` (none with a
negative `Repeat`) followed by an undue rest `u` sends exactly `p`. -/
theorem drain_append (p : List Event) : ∀ (u : Scheduler) (fuel : Nat),
    (∀ x ∈ p, x.Delay ≤ 0 ∧ 0 ≤ x.Repeat) → NoneDue u → p.length ≤ fuel →
      Exact.putTriggeredEventsToChannel fuel (p ++ u) = some (p, requeueAll p u) := by
  induction p with
  | nil => intro u fuel _ hu _; exact drain_noneDue fuel u hu
  | cons h p ih =>
    intro u fuel hp hu hf
    cases fuel with
    | zero => simp at hf
    | succ fuel =>
      have hh := hp h (List.mem_cons_self _ _)
      have hp2 : ∀ x ∈ p, x.Delay ≤ 0 ∧ 0 ≤ x.Repeat :=
        fun y hy => hp y (List.mem_cons_of_mem _ hy)
      have hf2 : p.length ≤ fuel := by simpa using hf
      have h0 : ¬ (h.Delay > 0) := by omega
      have hs := sum_due_nonpos p (fun y hy => (hp2 y hy).1)
      by_cases hr : h.Repeat = 0
      · simp only [List.cons_append, Exact.putTriggeredEventsToChannel, h0, if_false, hr,
          ne_eq, not_true_eq_false, List.append_eq, ih u fuel hp2 hu hf2, requeueAll]
      · have hpos : 0 < h.Repeat := by omega
        have hq := Queue_append_due p u { h with Delay := h.Repeat } (fun y hy => (hp2 y hy).1)
          hpos
        have hnd : NoneDue (Exact.Queue u
            { h with Delay := h.Repeat - (p.map Event.Delay).sum }) :=
          Queue_noneDue u _ hu (by show 0 < h.Repeat - (p.map Event.Delay).sum; omega)
        dsimp only at hq
        simp only [List.cons_append, Exact.putTriggeredEventsToChannel, h0, if_false, hr,
          ne_eq, not_false_eq_true, if_true, List.append_eq, hq, ih _ fuel hp2 hnd hf2,
          requeueAll]

theorem noneDue_dropWhile (q : Scheduler) : NoneDue (q.dropWhile due) := by
  induction q with
  | nil => trivial
  | cons x q ih =>
    by_cases h : x.Delay ≤ 0
    · simpa [List.dropWhile_cons, due, h] using ih
    · simp only [List.dropWhile_cons, due, h, decide_False]
      show 0 < x.Delay
      omega

/-- A drain of a queue without negative `Repeat` sends the leading run of due
entries and ends, within as many sends as the queue has entries. -/
theorem drain_eq (q : Scheduler) (fuel : Nat) (hR : ∀ e ∈ q, 0 ≤ e.Repeat)
    (hf : q.length ≤ fuel) :
    Exact.putTriggeredEventsToChannel fuel q =
      some (q.takeWhile due, requeueAll (q.takeWhile due) (q.dropWhile due)) := by
  have h := drain_append (q.takeWhile due) (q.dropWhile due) fuel ?_ (noneDue_dropWhile q) ?_
  · rwa [List.takeWhile_append_dropWhile] at h
  · intro x hx
    have h1 := takeWhile_all due q x hx
    exact ⟨by simpa [due] using h1, hR x ((List.takeWhile_prefix due).subset hx)⟩
  · exact le_trans (List.takeWhile_prefix due).length_le hf

theorem Tick_length (q : Scheduler) (n : Int) : (Exact.Tick q n).length = q.length := by
  cases q <;> rfl

theorem Tick_map_Name (q : Scheduler) (n : Int) :
    (Exact.Tick q n).map Event.Name = q.map Event.Name := by
  cases q <;> rfl

theorem Tick_Repeat (q : Scheduler) (n : Int) (hR : ∀ e ∈ q, 0 ≤ e.Repeat) :
    ∀ e ∈ Exact.Tick q n, 0 ≤ e.Repeat := by
  cases q with
  | nil => intro e he; simp [Exact.Tick] at he
  | cons first rest =>
    intro e he
    simp only [Exact.Tick, List.mem_cons] at he
    rcases he with rfl | he
    · exact hR first (List.mem_cons_self _ _)
    · exact hR e (List.mem_cons_of_mem _ he)

/-! ## Where a drain leaves the events it sent -/

theorem sum_zero_of_all_zero (p : List Event) (hp : ∀ x ∈ p, x.Delay = 0) :
    (p.map Event.Delay).sum = 0 := by
  induction p with
  | nil => rfl
  | cons x p ih =>
    have hx := hp x (List.mem_cons_self _ _)
    have := ih (fun y hy => hp y (List.mem_cons_of_mem _ hy))
    simp only [List.map_cons, List.sum_cons]
    omega

/-- When the due entries behind the first all have `Delay = 0`, the queue a
drain leaves holds, in absolute time, the undue rest and every sent event
with a `Repeat`, at its `Repeat`. -/
theorem requeueAll_perm (p : List Event) : ∀ u : Scheduler, (∀ x ∈ p.tail, x.Delay = 0) →
    List.Perm (absolute 0 (requeueAll p u))
      (absolute 0 u ++
        (p.filter (fun e => decide (e.Repeat ≠ 0))).map (fun e => { e with Delay := e.Repeat })) := by
  induction p with
  | nil => intro u _; simp [requeueAll]
  | cons h p ih =>
    intro u hp
    have hp0 : ∀ x ∈ p, x.Delay = 0 := hp
    have hs := sum_zero_of_all_zero p hp0
    have ht : ∀ x ∈ p.tail, x.Delay = 0 := fun x hx => hp0 x (List.mem_of_mem_tail hx)
    by_cases hr : h.Repeat = 0
    · simpa [requeueAll, hr, List.filter_cons] using ih u ht
    · have h1 := ih (Exact.Queue u { h with Delay := h.Repeat - (p.map Event.Delay).sum }) ht
      have h2 := absolute_Queue_perm u 0 { h with Delay := h.Repeat - (p.map Event.Delay).sum }
      simp only [hs, sub_zero, zero_add] at h1 h2
      simp only [requeueAll, hr, ne_eq, not_false_eq_true, if_true, hs, sub_zero,
        List.filter_cons, decide_True, List.map_cons]
      exact h1.trans ((List.Perm.append_right _ h2).trans List.perm_middle.symm)

theorem tail_takeWhile_subset (q : List Event) :
    ∀ x ∈ (q.takeWhile due).tail, x ∈ q.tail ∧ x.Delay ≤ 0 := by
  cases q with
  | nil => intro x hx; simp at hx
  | cons y q =>
    intro x hx
    by_cases h : due y
    · simp only [List.takeWhile_cons, h, if_true, List.tail_cons] at hx
      refine ⟨(List.takeWhile_prefix due).subset hx, ?_⟩
      simpa [due] using takeWhile_all due q x hx
    · simp [List.takeWhile_cons, h] at hx

/-- In exact arithmetic a drain of a queue with the sign invariant and no
negative `Repeat` leaves, in absolute time, the undue rest and every sent
event with `Repeat > 0` at cumulative delay `Repeat`. -/
theorem exact_drain_requeues_at_Repeat (q : Scheduler) (hS : SignInv q)
    (hR : ∀ e ∈ q, 0 ≤ e.Repeat) (fuel : Nat) (hf : q.length ≤ fuel) :
    ∃ sent left, Exact.putTriggeredEventsToChannel fuel q = some (sent, left) ∧
      List.Perm (absolute 0 left)
        (absolute 0 (q.dropWhile due) ++
          (sent.filter (fun e => decide (0 < e.Repeat))).map
            (fun e => { e with Delay := e.Repeat })) ∧
      ∀ e ∈ sent, 0 < e.Repeat → ({ e with Delay := e.Repeat } : Event) ∈ absolute 0 left := by
  have hd := drain_eq q fuel hR hf
  have hz : ∀ x ∈ (q.takeWhile due).tail, x.Delay = 0 := by
    intro x hx
    have h1 := tail_takeWhile_subset q x hx
    have h2 := hS x h1.1
    omega
  have hperm := requeueAll_perm (q.takeWhile due) (q.dropWhile due) hz
  have hfilter : (q.takeWhile due).filter (fun e => decide (e.Repeat ≠ 0)) =
      (q.takeWhile due).filter (fun e => decide (0 < e.Repeat)) := by
    apply List.filter_congr
    intro x hx
    have := hR x ((List.takeWhile_prefix due).subset hx)
    by_cases h0 : x.Repeat = 0
    · simp [h0]
    · have : 0 < x.Repeat := by omega
      simp [h0, this]
  rw [hfilter] at hperm
  refine ⟨_, _, hd, hperm, ?_⟩
  intro e he hpos
  refine hperm.symm.subset (List.mem_append_right _ ?_)
  exact List.mem_map.mpr ⟨e, List.mem_filter.mpr ⟨he, by simpa using hpos⟩, rfl⟩

/-! ## The sign invariant and the fields no operation writes -/

theorem Queue_length (q : Scheduler) : ∀ e : Event,
    (Exact.Queue q e).length = q.length + 1 := by
  induction q with
  | nil => intro e; rfl
  | cons x rest ih =>
    intro e
    by_cases h : x.Delay > e.Delay
    · simp [Exact.Queue, h]
    · simp [Exact.Queue, h, ih]

theorem Queue_nonneg (q : Scheduler) : ∀ e : Event, (∀ y ∈ q, 0 ≤ y.Delay) → 0 ≤ e.Delay →
    ∀ y ∈ Exact.Queue q e, 0 ≤ y.Delay := by
  induction q with
  | nil =>
    intro e _ he y hy
    simp only [Exact.Queue, List.mem_singleton] at hy
    rw [hy]; exact he
  | cons x rest ih =>
    intro e hq he y hy
    have hx := hq x (List.mem_cons_self _ _)
    by_cases h : x.Delay > e.Delay
    · simp only [Exact.Queue, h, if_true, List.mem_cons] at hy
      rcases hy with rfl | rfl | hy
      · exact he
      · show 0 ≤ x.Delay - e.Delay
        omega
      · exact hq y (List.mem_cons_of_mem _ hy)
    · simp only [Exact.Queue, h, if_false, List.mem_cons] at hy
      rcases hy with rfl | hy
      · exact hx
      · exact ih { e with Delay := e.Delay - x.Delay }
          (fun z hz => hq z (List.mem_cons_of_mem _ hz))
          (by show 0 ≤ e.Delay - x.Delay; omega) y hy

/-- `Queue` keeps the sign invariant, whatever the event's `Delay`. -/
theorem SignInv_Queue (q : Scheduler) (e : Event) (hq : SignInv q) :
    SignInv (Exact.Queue q e) := by
  cases q with
  | nil => intro y hy; simp [Exact.Queue] at hy
  | cons x rest =>
    have hrest : ∀ y ∈ rest, 0 ≤ y.Delay := hq
    by_cases h : x.Delay > e.Delay
    · intro y hy
      simp only [Exact.Queue, h, if_true, List.tail_cons, List.mem_cons] at hy
      rcases hy with rfl | hy
      · show 0 ≤ x.Delay - e.Delay
        omega
      · exact hrest y hy
    · intro y hy
      simp only [Exact.Queue, h, if_false, List.tail_cons] at hy
      exact Queue_nonneg rest { e with Delay := e.Delay - x.Delay } hrest
        (by show 0 ≤ e.Delay - x.Delay; omega) y hy

theorem SignInv_Tick (q : Scheduler) (n : Int) (hq : SignInv q) :
    SignInv (Exact.Tick q n) := by
  cases q with
  | nil => exact hq
  | cons x rest => exact hq

theorem SignInv_dropWhile (q : Scheduler) (hq : SignInv q) : SignInv (q.dropWhile due) := by
  intro y hy
  cases q with
  | nil => simp at hy
  | cons x rest =>
    have hsuf : (x :: rest).dropWhile due <:+ x :: rest := List.dropWhile_suffix due
    by_cases h : due x
    · have h2 : (x :: rest).dropWhile due = rest.dropWhile due := by
        simp [List.dropWhile_cons, h]
      rw [h2] at hy
      exact hq y ((List.dropWhile_suffix due).subset (List.mem_of_mem_tail hy))
    · have h2 : (x :: rest).dropWhile due = x :: rest := by
        simp [List.dropWhile_cons, h]
      rw [h2] at hy
      exact hq y hy

theorem SignInv_requeueAll (p : List Event) : ∀ u : Scheduler, SignInv u →
    SignInv (requeueAll p u) := by
  induction p with
  | nil => intro u hu; exact hu
  | cons h p ih =>
    intro u hu
    by_cases hr : h.Repeat = 0
    · simpa [requeueAll, hr] using ih u hu
    · simpa [requeueAll, hr] using ih _ (SignInv_Queue u _ hu)

theorem nonneg_of_SignInv_noneDue (q : Scheduler) (hS : SignInv q) (hN : NoneDue q) :
    ∀ e ∈ q, 0 ≤ e.Delay := by
  cases q with
  | nil => intro e he; simp at he
  | cons x rest =>
    intro e he
    have hx : 0 < x.Delay := hN
    rcases List.mem_cons.mp he with rfl | he
    · omega
    · exact hS e he

theorem absolute_map_static (q : List Event) : ∀ now : Int,
    (absolute now q).map Event.static = q.map Event.static := by
  induction q with
  | nil => intro now; rfl
  | cons x rest ih => intro now; simp [absolute, ih, Event.static]

/-- `Queue` adds the event's `Repeat`, `Name` and `What` to those queued and
changes none. -/
theorem Queue_static_perm (q : Scheduler) (e : Event) :
    List.Perm ((Exact.Queue q e).map Event.static) (e.static :: q.map Event.static) := by
  have h := (absolute_Queue_perm q 0 e).map Event.static
  rw [absolute_map_static] at h
  simpa [absolute_map_static, Event.static] using h

theorem requeueAll_static_perm (p : List Event) : ∀ u : Scheduler,
    List.Perm ((requeueAll p u).map Event.static)
      ((u ++ p.filter (fun e => decide (e.Repeat ≠ 0))).map Event.static) := by
  induction p with
  | nil => intro u; simp [requeueAll]
  | cons h p ih =>
    intro u
    by_cases hr : h.Repeat = 0
    · simpa [requeueAll, hr, List.filter_cons] using ih u
    · have h1 := ih (Exact.Queue u { h with Delay := h.Repeat - (p.map Event.Delay).sum })
      have h2 := Queue_static_perm u { h with Delay := h.Repeat - (p.map Event.Delay).sum }
      simp only [requeueAll, hr, ne_eq, not_false_eq_true, if_true, List.filter_cons,
        decide_True, List.map_append, List.map_cons] at h1 ⊢
      refine h1.trans ((List.Perm.append_right _ h2).trans ?_)
      exact List.perm_middle.symm

theorem Queue_Repeat (q : Scheduler) (e : Event) (hq : ∀ x ∈ q, 0 ≤ x.Repeat)
    (he : 0 ≤ e.Repeat) : ∀ x ∈ Exact.Queue q e, 0 ≤ x.Repeat := by
  intro x hx
  have h1 : x.static ∈ (Exact.Queue q e).map Event.static := List.mem_map_of_mem _ hx
  have h2 := (Queue_static_perm q e).subset h1
  rcases List.mem_cons.mp h2 with h3 | h3
  · have : x.Repeat = e.Repeat := congrArg Prod.fst h3
    omega
  · obtain ⟨y, hy, hxy⟩ := List.mem_map.mp h3
    have : y.Repeat = x.Repeat := congrArg Prod.fst hxy
    have := hq y hy
    omega

/-- A drain of a queue with the sign invariant and no negative `Repeat` ends;
the queue it leaves has the sign invariant, no due head, no negative `Repeat`
and no more entries than before. -/
theorem drain_result (q : Scheduler) (fuel : Nat) (hS : SignInv q)
    (hR : ∀ e ∈ q, 0 ≤ e.Repeat) (hf : q.length ≤ fuel) :
    ∃ sent left, Exact.putTriggeredEventsToChannel fuel q = some (sent, left) ∧
      SignInv left ∧ NoneDue left ∧ (∀ e ∈ left, 0 ≤ e.Repeat) ∧ left.length ≤ q.length := by
  have hd := drain_eq q fuel hR hf
  have hperm := requeueAll_static_perm (q.takeWhile due) (q.dropWhile due)
  refine ⟨_, _, hd, SignInv_requeueAll _ _ (SignInv_dropWhile q hS),
    noneDue_of_drain _ _ _ _ hd, ?_, ?_⟩
  · intro x hx
    have h1 := hperm.subset (List.mem_map_of_mem Event.static hx)
    obtain ⟨y, hy, hxy⟩ := List.mem_map.mp h1
    have hyq : y ∈ q := by
      rcases List.mem_append.mp hy with hy | hy
      · exact (List.dropWhile_suffix due).subset hy
      · exact (List.takeWhile_prefix due).subset (List.mem_of_mem_filter hy)
    have : y.Repeat = x.Repeat := congrArg Prod.fst hxy
    have := hR y hyq
    omega
  · have h1 := hperm.length_eq
    simp only [List.length_map, List.length_append] at h1
    have h2 := List.length_filter_le (fun e : Event => decide (e.Repeat ≠ 0)) (q.takeWhile due)
    have h3 : (q.takeWhile due).length + (q.dropWhile due).length = q.length := by
      rw [← List.length_append, List.takeWhile_append_dropWhile]
    omega

/-! ## The unit-tick schedule -/

theorem emod_unique (a b k r : Int) (h0 : 0 ≤ r) (h1 : r < b) (h : a = b * k + r) :
    a % b = r := by
  subst h
  rw [Int.add_comm, Int.add_mul_emod_self_left]
  exact Int.emod_eq_of_lt h0 h1

/-- One round of the unit cycle takes an event's entry at drain `t` to its
entry at drain `t + 1`. -/
theorem stateAt_succ (t : Nat) (e : Event) (hr : 0 ≤ e.Repeat) :
    (stateAt t e).bind stepOne = stateAt (t + 1) e := by
  have hc : ((t + 1 : Nat) : Int) = (t : Int) + 1 := by push_cast; rfl
  by_cases h1 : (t : Int) ≤ e.Delay
  · by_cases h2 : e.Delay - t = 0
    · have h3 : ¬ ((t : Int) + 1 ≤ e.Delay) := by omega
      by_cases h4 : e.Repeat = 0
      · simp [stateAt, remaining, stepOne, h1, h2, h3, h4, hc]
      · have h5 : 0 < e.Repeat := by omega
        have h6 : (e.Delay - ((t : Int) + 1)) % e.Repeat = e.Repeat - 1 :=
          emod_unique _ _ (-1) _ (by omega) (by omega) (by linarith)
        simp [stateAt, remaining, stepOne, h1, h2, h3, h4, h5, h6, hc]
    · have h3 : (t : Int) + 1 ≤ e.Delay := by omega
      simp only [stateAt, remaining, h1, true_or, if_true, Option.some_bind, stepOne, ne_eq, h2,
        not_false_eq_true, hc, h3]
      congr 2
      omega
  · have h3 : ¬ ((t : Int) + 1 ≤ e.Delay) := by omega
    by_cases h4 : e.Repeat = 0
    · simp [stateAt, h1, h3, h4, hc]
    · have h5 : 0 < e.Repeat := by omega
      have hm0 := Int.emod_nonneg (e.Delay - t) h4
      have hm1 := Int.emod_lt_of_pos (e.Delay - t) h5
      have hk := Int.ediv_add_emod (e.Delay - t) e.Repeat
      by_cases h6 : (e.Delay - t) % e.Repeat = 0
      · have h7 : (e.Delay - ((t : Int) + 1)) % e.Repeat = e.Repeat - 1 :=
          emod_unique _ _ ((e.Delay - t) / e.Repeat - 1) _ (by omega) (by omega)
            (by rw [mul_sub, mul_one]; linarith)
        simp [stateAt, remaining, stepOne, h1, h3, h4, h5, h6, h7, hc]
      · have h7 : (e.Delay - ((t : Int) + 1)) % e.Repeat = (e.Delay - t) % e.Repeat - 1 :=
          emod_unique _ _ ((e.Delay - t) / e.Repeat) _ (by omega) (by omega) (by linarith)
        simp [stateAt, remaining, stepOne, h1, h3, h4, h5, h6, h7, hc]

theorem stateAt_of_scheduledAt (t : Nat) (e : Event) (h : scheduledAt t e) :
    stateAt t e = some { e with Delay := 0 } := by
  rcases h with h | ⟨h1, h2, h3⟩
  · have h4 : (t : Int) ≤ e.Delay := by omega
    have h5 : e.Delay - t = 0 := by omega
    simp [stateAt, remaining, h4, h5]
  · have h4 : ¬ ((t : Int) ≤ e.Delay) := by omega
    have h5 : (e.Delay - t) % e.Repeat = 0 :=
      Int.emod_eq_zero_of_dvd ((dvd_sub_comm).mp h3)
    simp [stateAt, remaining, h4, h1, h5]

theorem stateAt_ne_zero (t : Nat) (e x : Event) (h : ¬ scheduledAt t e)
    (hx : stateAt t e = some x) : x.Delay ≠ 0 := by
  intro h0
  apply h
  unfold stateAt at hx
  split at hx
  · rename_i ha
    simp only [Option.some.injEq] at hx
    rw [← hx] at h0
    have h0 : remaining t e = 0 := h0
    unfold remaining at h0
    split at h0
    · left; omega
    · rename_i hlt
      right
      have hR : 0 < e.Repeat := by
        rcases ha with ha | ha
        · exact absurd ha hlt
        · exact ha
      exact ⟨hR, by omega, (dvd_sub_comm).mp (Int.dvd_of_emod_eq_zero h0)⟩
  · exact absurd hx (by simp)

theorem filterMap_stateAt_succ (events : List Event) (t : Nat)
    (hev : ∀ e ∈ events, 0 ≤ e.Repeat) :
    (events.filterMap (stateAt t)).filterMap stepOne = events.filterMap (stateAt (t + 1)) := by
  rw [List.filterMap_filterMap]
  apply List.filterMap_congr
  intro e he
  exact stateAt_succ t e (hev e he)

/-- Of the entries the events stand for at drain `t`, those at time `0` are
the events the schedule names. -/
theorem filter_stateAt_zero (events : List Event) (t : Nat) :
    (events.filterMap (stateAt t)).filter (fun x => decide (x.Delay = 0)) =
      (events.filter (fun e => decide (scheduledAt t e))).map
        (fun e => { e with Delay := 0 }) := by
  induction events with
  | nil => rfl
  | cons e events ih =>
    by_cases h : scheduledAt t e
    · simp [List.filterMap_cons, stateAt_of_scheduledAt t e h, List.filter_cons, h, ih]
    · cases hs : stateAt t e with
      | none => simp [List.filterMap_cons, hs, List.filter_cons, h, ih]
      | some x =>
        have hx := stateAt_ne_zero t e x h hs
        simp [List.filterMap_cons, hs, List.filter_cons, h, hx, ih]

/-- One round on a list of entries in absolute time: the entries not yet due,
one unit closer, and the due ones with a `Repeat`, started anew. -/
theorem stepOne_perm (l : List Event) :
    List.Perm
      ((l.filter (fun x => decide (x.Delay ≠ 0))).map (fun x => { x with Delay := x.Delay - 1 }) ++
        ((l.filter (fun x => decide (x.Delay = 0))).filter (fun x => decide (x.Repeat ≠ 0))).map
          (fun x => { x with Delay := x.Repeat - 1 }))
      (l.filterMap stepOne) := by
  induction l with
  | nil => simp
  | cons x l ih =>
    by_cases h1 : x.Delay = 0
    · by_cases h2 : x.Repeat = 0
      · simpa [List.filter_cons, List.filterMap_cons, stepOne, h1, h2] using ih
      · simp only [List.filter_cons, h1, ne_eq, not_true_eq_false, decide_False,
          Bool.false_eq_true, if_false, decide_True, if_true, h2, not_false_eq_true,
          List.map_cons, List.filterMap_cons, stepOne]
        exact List.perm_middle.trans (List.Perm.cons _ ih)
    · simp only [List.filter_cons, h1, ne_eq, not_false_eq_true, decide_True, if_true,
        decide_False, Bool.false_eq_true, if_false, List.map_cons, List.cons_append,
        List.filterMap_cons, stepOne]
      exact List.Perm.cons _ ih

theorem absolute_append_zeros (p : List Event) (u : List Event)
    (hp : ∀ x ∈ p, x.Delay = 0) : absolute 0 (p ++ u) = p ++ absolute 0 u := by
  induction p with
  | nil => rfl
  | cons x p ih =>
    have hx : x.Delay = 0 := hp x (List.mem_cons_self _ _)
    have hx2 : ({ x with Delay := 0 } : Event) = x := by rw [← hx]
    simp only [List.cons_append, absolute, hx, add_zero, hx2, List.append_eq,
      ih (fun y hy => hp y (List.mem_cons_of_mem _ hy))]

theorem absolute_pos (u : Scheduler) (hN : NoneDue u) (hu : ∀ x ∈ u, 0 ≤ x.Delay) :
    ∀ x ∈ absolute 0 u, 0 < x.Delay := by
  cases u with
  | nil => intro x hx; simp [absolute] at hx
  | cons y rest =>
    have hy : 0 < y.Delay := hN
    intro x hx
    simp only [absolute, List.mem_cons] at hx
    rcases hx with rfl | hx
    · show 0 < 0 + y.Delay
      omega
    · exact absolute_later_of_signInv rest (0 + y.Delay) 0
        (fun e he => hu e (List.mem_cons_of_mem _ he)) (by omega) x hx

theorem SetUpQueue_perm (events : List Event) : ∀ q : Scheduler,
    List.Perm (absolute 0 (events.foldl Exact.Queue q)) (absolute 0 q ++ events) := by
  induction events with
  | nil => intro q; simp
  | cons e events ih =>
    intro q
    have h1 := ih (Exact.Queue q e)
    have h2 := absolute_Queue_perm q 0 e
    have he : ({ e with Delay := 0 + e.Delay } : Event) = e := by simp
    rw [he] at h2
    simp only [List.foldl_cons]
    exact h1.trans ((List.Perm.append_right _ h2).trans List.perm_middle.symm)

theorem SetUpQueue_nonneg (events : List Event) : ∀ q : Scheduler,
    (∀ x ∈ q, 0 ≤ x.Delay) → (∀ e ∈ events, 0 ≤ e.Delay) →
      ∀ x ∈ events.foldl Exact.Queue q, 0 ≤ x.Delay := by
  induction events with
  | nil => intro q hq _; simpa using hq
  | cons e events ih =>
    intro q hq hev
    simp only [List.foldl_cons]
    exact ih (Exact.Queue q e)
      (Queue_nonneg q e hq (hev e (List.mem_cons_self _ _)))
      (fun x hx => hev x (List.mem_cons_of_mem _ hx))

theorem filterMap_stateAt_zero (events : List Event) (hev : ∀ e ∈ events, 0 ≤ e.Delay) :
    events.filterMap (stateAt 0) = events := by
  induction events with
  | nil => rfl
  | cons e events ih =>
    have he := hev e (List.mem_cons_self _ _)
    have h1 : stateAt 0 e = some e := by
      simp [stateAt, remaining, he]
    simp [List.filterMap_cons, h1, ih (fun x hx => hev x (List.mem_cons_of_mem _ hx))]

theorem Repeat_of_stateAt (events : List Event) (t : Nat)
    (hev : ∀ e ∈ events, 0 ≤ e.Repeat) (q : Scheduler)
    (hperm : List.Perm (absolute 0 q) (events.filterMap (stateAt t))) :
    ∀ x ∈ q, 0 ≤ x.Repeat := by
  intro x hx
  have h1 : x.static ∈ (absolute 0 q).map Event.static := by
    rw [absolute_map_static]; exact List.mem_map_of_mem _ hx
  obtain ⟨y, hy, hxy⟩ := List.mem_map.mp ((hperm.map Event.static).subset h1)
  obtain ⟨e, he, hey⟩ := List.mem_filterMap.mp hy
  have h2 : y.Repeat = x.Repeat := congrArg Prod.fst hxy
  have h3 : y.Repeat = e.Repeat := by
    unfold stateAt at hey
    split at hey
    · simp only [Option.some.injEq] at hey
      rw [← hey]
    · exact absurd hey (by simp)
  have := hev e he
  omega

/-- One round of the unit cycle. At the start of drain `t` the queue holds, in
absolute time, the entries the events stand for at `t`; the drain sends the
events scheduled at `t`, and after the `Tick(1)` the queue holds the entries
for `t + 1`. -/
theorem cycle_step (events : List Event) (hev : ∀ e ∈ events, 0 ≤ e.Repeat) (fuel : Nat)
    (hf : events.length ≤ fuel) (t : Nat) (q : Scheduler) (hq : ∀ x ∈ q, 0 ≤ x.Delay)
    (hperm : List.Perm (absolute 0 q) (events.filterMap (stateAt t))) :
    ∃ sent left, Exact.putTriggeredEventsToChannel fuel q = some (sent, left) ∧
      List.Perm sent
        ((events.filter (fun e => decide (scheduledAt t e))).map
          (fun e => { e with Delay := 0 })) ∧
      (∀ x ∈ Exact.Tick left 1, 0 ≤ x.Delay) ∧
      List.Perm (absolute 0 (Exact.Tick left 1)) (events.filterMap (stateAt (t + 1))) := by
  have hRq := Repeat_of_stateAt events t hev q hperm
  have hlen : q.length ≤ fuel := by
    have h1 := hperm.length_eq
    rw [absolute_length] at h1
    have h2 := List.length_filterMap_le (stateAt t) events
    omega
  have hS : SignInv q := fun e he => hq e (List.mem_of_mem_tail he)
  have hd := drain_eq q fuel hRq hlen
  have hzero : ∀ x ∈ q.takeWhile due, x.Delay = 0 := by
    intro x hx
    have h1 : x.Delay ≤ 0 := by simpa [due] using takeWhile_all due q x hx
    have h2 := hq x ((List.takeWhile_prefix due).subset hx)
    omega
  have hu : ∀ x ∈ absolute 0 (q.dropWhile due), 0 < x.Delay :=
    absolute_pos _ (noneDue_dropWhile q)
      (fun x hx => hq x ((List.dropWhile_suffix due).subset hx))
  have habs : absolute 0 q = q.takeWhile due ++ absolute 0 (q.dropWhile due) := by
    have h := absolute_append_zeros (q.takeWhile due) (q.dropWhile due) hzero
    rwa [List.takeWhile_append_dropWhile] at h
  have hfz : (absolute 0 q).filter (fun x => decide (x.Delay = 0)) = q.takeWhile due := by
    rw [habs, List.filter_append]
    have h1 : (q.takeWhile due).filter (fun x => decide (x.Delay = 0)) = q.takeWhile due :=
      List.filter_eq_self.mpr (fun x hx => by simpa using hzero x hx)
    have h2 : (absolute 0 (q.dropWhile due)).filter (fun x => decide (x.Delay = 0)) = [] :=
      List.filter_eq_nil_iff.mpr (fun x hx => by have := hu x hx; simp; omega)
    rw [h1, h2, List.append_nil]
  have hfn : (absolute 0 q).filter (fun x => decide (x.Delay ≠ 0)) =
      absolute 0 (q.dropWhile due) := by
    rw [habs, List.filter_append]
    have h1 : (q.takeWhile due).filter (fun x => decide (x.Delay ≠ 0)) = [] :=
      List.filter_eq_nil_iff.mpr (fun x hx => by simpa using hzero x hx)
    have h2 : (absolute 0 (q.dropWhile due)).filter (fun x => decide (x.Delay ≠ 0)) =
        absolute 0 (q.dropWhile due) :=
      List.filter_eq_self.mpr (fun x hx => by have := hu x hx; simp; omega)
    rw [h1, h2, List.nil_append]
  have hsent : List.Perm (q.takeWhile due)
      ((events.filterMap (stateAt t)).filter (fun x => decide (x.Delay = 0))) := by
    rw [← hfz]; exact hperm.filter _
  have hrest : List.Perm (absolute 0 (q.dropWhile due))
      ((events.filterMap (stateAt t)).filter (fun x => decide (x.Delay ≠ 0))) := by
    rw [← hfn]; exact hperm.filter _
  have hleft := requeueAll_perm (q.takeWhile due) (q.dropWhile due)
    (fun x hx => hzero x (List.mem_of_mem_tail hx))
  have hSl : SignInv (requeueAll (q.takeWhile due) (q.dropWhile due)) :=
    SignInv_requeueAll _ _ (SignInv_dropWhile q hS)
  have hNl : NoneDue (requeueAll (q.takeWhile due) (q.dropWhile due)) :=
    noneDue_of_drain _ _ _ _ hd
  refine ⟨_, _, hd, ?_, ?_, ?_⟩
  · rw [← filter_stateAt_zero]; exact hsent
  · intro x hx
    generalize requeueAll (q.takeWhile due) (q.dropWhile due) = l at hSl hNl hx
    cases l with
    | nil => simp [Exact.Tick] at hx
    | cons y rest =>
      have hy : 0 < y.Delay := hNl
      simp only [Exact.Tick, List.mem_cons] at hx
      rcases hx with rfl | hx
      · show 0 ≤ y.Delay - 1
        omega
      · exact hSl x hx
  · rw [absolute_Tick, ← filterMap_stateAt_succ events t hev]
    refine List.Perm.trans ?_ (stepOne_perm (events.filterMap (stateAt t)))
    refine ((hleft.map _).trans ?_)
    rw [List.map_append, List.map_map]
    refine List.Perm.append (hrest.map _) ?_
    exact ((hsent.filter _).map _)

theorem unitCycle_from (events : List Event) (hev : ∀ e ∈ events, 0 ≤ e.Repeat) (fuel : Nat)
    (hf : events.length ≤ fuel) (t : Nat) : ∀ (k : Nat) (q : Scheduler),
    (∀ x ∈ q, 0 ≤ x.Delay) → List.Perm (absolute 0 q) (events.filterMap (stateAt k)) →
      ∃ sent s, Exact.unitCycle fuel t q = some (sent, s) ∧
        List.Perm sent
          ((events.filter (fun e => decide (scheduledAt (k + t) e))).map
            (fun e => { e with Delay := 0 })) := by
  induction t with
  | zero =>
    intro k q hq hperm
    obtain ⟨sent, left, hd, hs, _, _⟩ := cycle_step events hev fuel hf k q hq hperm
    exact ⟨sent, Exact.Tick left 1, by simp [Exact.unitCycle, hd], by simpa using hs⟩
  | succ t ih =>
    intro k q hq hperm
    obtain ⟨sent, left, hd, _, hq2, hperm2⟩ := cycle_step events hev fuel hf k q hq hperm
    obtain ⟨sent2, s2, hc, hs2⟩ := ih (k + 1) (Exact.Tick left 1) hq2 hperm2
    refine ⟨sent2, s2, by simp [Exact.unitCycle, hd, hc], ?_⟩
    have hk : k + 1 + t = k + (t + 1) := by omega
    rw [hk] at hs2
    exact hs2

/-- The unit-tick schedule in exact arithmetic. -/
theorem exact_unit_tick_schedule (events : List Event)
    (hev : ∀ e ∈ events, 0 ≤ e.Delay ∧ 0 ≤ e.Repeat) (fuel : Nat)
    (hf : events.length ≤ fuel) (t : Nat) :
    ∃ sent s, Exact.unitCycle fuel t (Exact.SetUpQueue events) = some (sent, s) ∧
      List.Perm sent
        ((events.filter (fun e => decide (scheduledAt t e))).map
          (fun e => { e with Delay := 0 })) := by
  have h0 := unitCycle_from events (fun e he => (hev e he).2) fuel hf t 0 (Exact.SetUpQueue events)
    (SetUpQueue_nonneg events NewScheduler (fun x hx => by simp [NewScheduler] at hx)
      (fun e he => (hev e he).1))
    (by
      rw [filterMap_stateAt_zero events (fun e he => (hev e he).1)]
      simpa [Exact.SetUpQueue, NewScheduler, absolute] using SetUpQueue_perm events NewScheduler)
  simpa using h0

/-! ## What a drain sends and what it leaves -/

theorem filter_Repeat_pos (p : List Event) (hR : ∀ e ∈ p, 0 ≤ e.Repeat) :
    p.filter (fun e => decide (e.Repeat ≠ 0)) = p.filter (fun e => decide (0 < e.Repeat)) := by
  apply List.filter_congr
  intro x hx
  have := hR x hx
  by_cases h0 : x.Repeat = 0
  · simp [h0]
  · have : 0 < x.Repeat := by omega
    simp [h0, this]

theorem length_filter_Repeat (p : List Event) :
    (p.filter (fun e => decide (e.Repeat ≠ 0))).length +
      (p.filter (fun e => decide (e.Repeat = 0))).length = p.length := by
  induction p with
  | nil => rfl
  | cons x p ih =>
    simp only [ne_eq, decide_not] at ih ⊢
    by_cases h0 : x.Repeat = 0
    · simp [List.filter_cons, h0]; omega
    · simp [List.filter_cons, h0]; omega

/-! ## Order of insertion -/

theorem Queue_comm_lt (q : Scheduler) : ∀ a b : Event, a.Delay < b.Delay →
    Exact.Queue (Exact.Queue q a) b = Exact.Queue (Exact.Queue q b) a := by
  induction q with
  | nil =>
    intro a b h
    have h1 : ¬ (a.Delay > b.Delay) := by omega
    have h2 : b.Delay > a.Delay := by omega
    simp [Exact.Queue, h1, h2]
  | cons x rest ih =>
    intro a b h
    have h1 : ¬ (a.Delay > b.Delay) := by omega
    have h2 : b.Delay > a.Delay := by omega
    by_cases hxa : x.Delay > a.Delay
    · by_cases hxb : x.Delay > b.Delay
      · have h3 : x.Delay - a.Delay > b.Delay - a.Delay := by omega
        have h4 : x.Delay - a.Delay - (b.Delay - a.Delay) = x.Delay - b.Delay := by omega
        simp [Exact.Queue, hxa, hxb, h1, h2, h3, h4]
      · have h3 : ¬ (x.Delay - a.Delay > b.Delay - a.Delay) := by omega
        have h4 : b.Delay - a.Delay - (x.Delay - a.Delay) = b.Delay - x.Delay := by omega
        simp [Exact.Queue, hxa, hxb, h1, h3, h4]
    · have hxb : ¬ (x.Delay > b.Delay) := by omega
      have h3 := ih { a with Delay := a.Delay - x.Delay } { b with Delay := b.Delay - x.Delay }
        (by show a.Delay - x.Delay < b.Delay - x.Delay; omega)
      simp [Exact.Queue, hxa, hxb, h3]

/-! ## The code agrees with the exact reference when nothing overflows -/

theorem wrap64_eq (x : Int) (h : InInt64 x) : wrap64 x = x := by
  unfold InInt64 at h
  unfold wrap64
  omega

theorem wrap64_inInt64 (x : Int) : InInt64 (wrap64 x) := by
  unfold InInt64 wrap64
  omega

/-- When no subtraction of `Queue(e)` overflows, `Queue` computes what it
computes in the integers. -/
theorem Queue_eq_exact (q : Scheduler) : ∀ e : Event, QueueNoOverflow q e →
    Scheduler.Queue q e = Exact.Queue q e := by
  induction q with
  | nil => intro e _; rfl
  | cons x rest ih =>
    intro e h
    by_cases hx : x.Delay > e.Delay
    · simp only [QueueNoOverflow, hx, if_true] at h
      simp only [Scheduler.Queue, Exact.Queue, hx, if_true, wrap64_eq _ h]
    · simp only [QueueNoOverflow, hx, if_false] at h
      simp only [Scheduler.Queue, Exact.Queue, hx, if_false, wrap64_eq _ h.1, ih _ h.2]

theorem Tick_eq_exact (q : Scheduler) (n : Int) (h : TickNoOverflow q n) :
    Scheduler.Tick q n = Exact.Tick q n := by
  cases q with
  | nil => rfl
  | cons first rest =>
    have h1 : InInt64 (first.Delay - n) := h
    simp only [Scheduler.Tick, Exact.Tick, wrap64_eq _ h1]

/-- On a queue of non-negative `int64` delays no subtraction of `Queue(e)`
overflows, for an event with a non-negative `int64` `Delay`. -/
theorem QueueNoOverflow_of_nonneg (q : Scheduler) : ∀ e : Event,
    (∀ x ∈ q, 0 ≤ x.Delay ∧ InInt64 x.Delay) → 0 ≤ e.Delay → InInt64 e.Delay →
      QueueNoOverflow q e := by
  induction q with
  | nil => intro e _ _ _; trivial
  | cons x rest ih =>
    intro e hq h0 he
    have hx := hq x (List.mem_cons_self _ _)
    have hx2 := hx.2
    unfold InInt64 at hx2 he
    by_cases hxe : x.Delay > e.Delay
    · simp only [QueueNoOverflow, hxe, if_true]
      unfold InInt64
      omega
    · simp only [QueueNoOverflow, hxe, if_false]
      refine ⟨by unfold InInt64; omega, ?_⟩
      exact ih _ (fun y hy => hq y (List.mem_cons_of_mem _ hy))
        (by show 0 ≤ e.Delay - x.Delay; omega)
        (by show InInt64 (e.Delay - x.Delay); unfold InInt64; omega)

/-- `Queue` keeps every `Delay` and `Repeat` an `int64` value. -/
theorem Queue_IsInt64 (q : Scheduler) : ∀ e : Event, (∀ x ∈ q, x.IsInt64) → e.IsInt64 →
    ∀ x ∈ Scheduler.Queue q e, x.IsInt64 := by
  induction q with
  | nil =>
    intro e _ he x hx
    simp only [Scheduler.Queue, List.mem_singleton] at hx
    rw [hx]; exact he
  | cons y rest ih =>
    intro e hq he x hx
    have hy := hq y (List.mem_cons_self _ _)
    by_cases h : y.Delay > e.Delay
    · simp only [Scheduler.Queue, h, if_true, List.mem_cons] at hx
      rcases hx with rfl | rfl | hx
      · exact he
      · exact ⟨wrap64_inInt64 _, hy.2⟩
      · exact hq x (List.mem_cons_of_mem _ hx)
    · simp only [Scheduler.Queue, h, if_false, List.mem_cons] at hx
      rcases hx with rfl | hx
      · exact hy
      · exact ih { e with Delay := wrap64 (e.Delay - y.Delay) }
          (fun z hz => hq z (List.mem_cons_of_mem _ hz)) ⟨wrap64_inInt64 _, he.2⟩ x hx

theorem Tick_IsInt64 (q : Scheduler) (n : Int) (hq : ∀ x ∈ q, x.IsInt64) :
    ∀ x ∈ Scheduler.Tick q n, x.IsInt64 := by
  cases q with
  | nil => intro x hx; simp [Scheduler.Tick] at hx
  | cons first rest =>
    intro x hx
    simp only [Scheduler.Tick, List.mem_cons] at hx
    rcases hx with rfl | hx
    · exact ⟨wrap64_inInt64 _, (hq first (List.mem_cons_self _ _)).2⟩
    · exact hq x (List.mem_cons_of_mem _ hx)

/-- A drain of a queue of `int64` values leaves a queue of `int64` values. -/
theorem drain_IsInt64 : ∀ (fuel : Nat) (q : Scheduler) (sent : List Event) (left : Scheduler),
    Scheduler.putTriggeredEventsToChannel fuel q = some (sent, left) →
      (∀ x ∈ q, x.IsInt64) → ∀ x ∈ left, x.IsInt64 := by
  intro fuel
  induction fuel with
  | zero =>
    intro q sent left h hq
    cases q with
    | nil =>
      simp only [Scheduler.putTriggeredEventsToChannel, Option.some.injEq, Prod.mk.injEq] at h
      rw [← h.2]; exact hq
    | cons first rest =>
      by_cases h0 : first.Delay > 0
      · simp only [Scheduler.putTriggeredEventsToChannel, h0, if_true, Option.some.injEq,
          Prod.mk.injEq] at h
        rw [← h.2]; exact hq
      · simp [Scheduler.putTriggeredEventsToChannel, h0] at h
  | succ fuel ih =>
    intro q sent left h hq
    cases q with
    | nil =>
      simp only [Scheduler.putTriggeredEventsToChannel, Option.some.injEq, Prod.mk.injEq] at h
      rw [← h.2]; exact hq
    | cons first rest =>
      have hfirst := hq first (List.mem_cons_self _ _)
      have hrest : ∀ x ∈ rest, x.IsInt64 := fun x hx => hq x (List.mem_cons_of_mem _ hx)
      by_cases h0 : first.Delay > 0
      · simp only [Scheduler.putTriggeredEventsToChannel, h0, if_true, Option.some.injEq,
          Prod.mk.injEq] at h
        rw [← h.2]; exact hq
      · simp only [Scheduler.putTriggeredEventsToChannel, h0, if_false] at h
        split at h
        · exact absurd h (by simp)
        · rename_i sent2 left2 heq
          simp only [Option.some.injEq, Prod.mk.injEq] at h
          rw [← h.2]
          refine ih _ _ _ heq ?_
          by_cases hr : first.Repeat = 0
          · simpa [hr] using hrest
          · simp only [hr, ne_eq, not_false_eq_true, if_true]
            exact Queue_IsInt64 rest _ hrest ⟨hfirst.2, hfirst.2⟩

/-- On a queue of `int64` values with the sign invariant and no negative
`Repeat` the drain does no subtraction that overflows: it computes what the
exact drain computes. -/
theorem drain_eq_exact : ∀ (fuel : Nat) (q : Scheduler), SignInv q → (∀ x ∈ q, x.IsInt64) →
    (∀ e ∈ q, 0 ≤ e.Repeat) →
      Scheduler.putTriggeredEventsToChannel fuel q = Exact.putTriggeredEventsToChannel fuel q := by
  intro fuel
  induction fuel with
  | zero => intro q _ _ _; cases q <;> rfl
  | succ fuel ih =>
    intro q hS hT hR
    cases q with
    | nil => rfl
    | cons first rest =>
      have hfirst := hT first (List.mem_cons_self _ _)
      have hrestT : ∀ x ∈ rest, x.IsInt64 := fun x hx => hT x (List.mem_cons_of_mem _ hx)
      have hrestR : ∀ x ∈ rest, 0 ≤ x.Repeat := fun x hx => hR x (List.mem_cons_of_mem _ hx)
      have hrest0 : ∀ x ∈ rest, 0 ≤ x.Delay := hS
      have hrestS : SignInv rest := fun x hx => hrest0 x (List.mem_of_mem_tail hx)
      by_cases h0 : first.Delay > 0
      · simp [Scheduler.putTriggeredEventsToChannel, Exact.putTriggeredEventsToChannel, h0]
      · by_cases hr : first.Repeat = 0
        · simp only [Scheduler.putTriggeredEventsToChannel, Exact.putTriggeredEventsToChannel,
            h0, if_false, hr, ne_eq, not_true_eq_false, ih rest hrestS hrestT hrestR]
        · have hpos : 0 < first.Repeat := by
            have := hR first (List.mem_cons_self _ _)
            omega
          have hfit : QueueNoOverflow rest { first with Delay := first.Repeat } :=
            QueueNoOverflow_of_nonneg rest _ (fun x hx => ⟨hrest0 x hx, (hrestT x hx).1⟩)
              (by show 0 ≤ first.Repeat; omega) hfirst.2
          have hq := Queue_eq_exact rest _ hfit
          have hT2 : ∀ x ∈ Exact.Queue rest { first with Delay := first.Repeat }, x.IsInt64 := by
            rw [← hq]
            exact Queue_IsInt64 rest _ hrestT ⟨hfirst.2, hfirst.2⟩
          have hR2 := Queue_Repeat rest { first with Delay := first.Repeat } hrestR
            (by show 0 ≤ first.Repeat; omega)
          have hS2 := SignInv_Queue rest { first with Delay := first.Repeat } hrestS
          simp only [Scheduler.putTriggeredEventsToChannel, Exact.putTriggeredEventsToChannel,
            h0, if_false, hr, ne_eq, not_false_eq_true, if_true, hq, ih _ hS2 hT2 hR2]

/-! ## Claims about `Queue` and `Tick` -/

/-- C1, the claim refuted as stated. In the queue `[a:9223372036854775807]`
the sum of `Delay` through `a` is `2^63 - 1`; `Queue` of an event with `Delay`
`-1` links it before `a` and lowers `a` by `-1`, which overflows: `a` is left
with `Delay` `-2^63`, and the sum of `Delay` through `a` is `-2^63 - 1`. -/
theorem Queue_overflow_moves_absolute_time :
    Scheduler.Queue [⟨9223372036854775807, 0, "a", []⟩] ⟨-1, 0, "e", []⟩ =
      [⟨-1, 0, "e", []⟩, ⟨-9223372036854775808, 0, "a", []⟩] ∧
    cumulativeDelay [⟨9223372036854775807, 0, "a", []⟩] 0 = 9223372036854775807 ∧
    cumulativeDelay [⟨-1, 0, "e", []⟩, ⟨-9223372036854775808, 0, "a", []⟩] 1 =
      -9223372036854775809 := by
  decide

/-- C1, amended. When no subtraction of `Queue(e)` overflows `int64`, `Queue`
preserves every absolute firing time and places the new event at its input
`Delay`: with every entry's `Delay` replaced by the sum of `Delay` from the
head through it, the queue after `Queue(e)` is the queue before with `e`
itself (its `Delay` still the input `D`) linked in at one place. -/
theorem Queue_preserves_absolute_times (q : Scheduler) (e : Event)
    (h : QueueNoOverflow q e) :
    ∃ pre post, absolute 0 q = pre ++ post ∧
      absolute 0 (Scheduler.Queue q e) = pre ++ e :: post := by
  rw [Queue_eq_exact q e h]
  refine ⟨(absolute 0 q).takeWhile (fun x => decide (x.Delay ≤ 0 + e.Delay)),
    (absolute 0 q).dropWhile (fun x => decide (x.Delay ≤ 0 + e.Delay)), ?_, ?_⟩
  · rw [List.takeWhile_append_dropWhile]
  · have h := absolute_Queue q 0 e
    have he : ({ e with Delay := 0 + e.Delay } : Event) = e := by simp
    rw [he] at h
    exact h

/-- C1 amended, at the queue `[tick:2, tock:1]` and an event with `Delay` `2`. -/
theorem Queue_preserves_absolute_times_witness :
    ∃ pre post, absolute 0 [⟨2, 2, "tick", []⟩, ⟨1, 2, "tock", []⟩] = pre ++ post ∧
      absolute 0 (Scheduler.Queue [⟨2, 2, "tick", []⟩, ⟨1, 2, "tock", []⟩] ⟨2, 0, "e", []⟩) =
        pre ++ ⟨2, 0, "e", []⟩ :: post :=
  Queue_preserves_absolute_times [⟨2, 2, "tick", []⟩, ⟨1, 2, "tock", []⟩] ⟨2, 0, "e", []⟩
    (by decide)

/-- C7, the claim refuted as stated. `Queue {-5,0,h}` and `Queue {-2,0,x}` on
the new scheduler give `[h:-5, x:3]`, cumulative delays `-5` and `-2`, none
greater than `2^63 - 1`, so an event with that `Delay` belongs at the tail;
walking past `h` its `Delay` overflows to `-2^63 + 4`, and `Queue` links it
before `x`. And `Queue {2^63-1,0,b}`, `Queue {-2^63+4,0,a}`, `Tick(2^63-1)`
give `[a:5, b:-5]`, where `b` has cumulative delay `0`: `Queue` of an event
with `Delay` `0` overflows nowhere and links it before `a`, hence before `b`,
an entry with the same absolute time. -/
theorem Queue_overflow_wrong_place :
    Scheduler.Queue (Scheduler.Queue NewScheduler ⟨-5, 0, "h", []⟩) ⟨-2, 0, "x", []⟩ =
      [⟨-5, 0, "h", []⟩, ⟨3, 0, "x", []⟩] ∧
    absolute 0 [⟨-5, 0, "h", []⟩, ⟨3, 0, "x", []⟩] =
      [⟨-5, 0, "h", []⟩, ⟨-2, 0, "x", []⟩] ∧
    Scheduler.Queue [⟨-5, 0, "h", []⟩, ⟨3, 0, "x", []⟩] ⟨9223372036854775807, 0, "e", []⟩ =
      [⟨-5, 0, "h", []⟩, ⟨-9223372036854775804, 0, "e", []⟩,
        ⟨9223372036854775807, 0, "x", []⟩] ∧
    Scheduler.Tick
        (Scheduler.Queue (Scheduler.Queue NewScheduler ⟨9223372036854775807, 0, "b", []⟩)
          ⟨-9223372036854775804, 0, "a", []⟩) 9223372036854775807 =
      [⟨5, 0, "a", []⟩, ⟨-5, 0, "b", []⟩] ∧
    QueueNoOverflow [⟨5, 0, "a", []⟩, ⟨-5, 0, "b", []⟩] ⟨0, 0, "e", []⟩ ∧
    cumulativeDelay [⟨5, 0, "a", []⟩, ⟨-5, 0, "b", []⟩] 1 = (⟨0, 0, "e", []⟩ : Event).Delay ∧
    Scheduler.Queue [⟨5, 0, "a", []⟩, ⟨-5, 0, "b", []⟩] ⟨0, 0, "e", []⟩ =
      [⟨0, 0, "e", []⟩, ⟨5, 0, "a", []⟩, ⟨-5, 0, "b", []⟩] := by
  decide

/-- C7, amended. When no subtraction of `Queue(e)` overflows `int64`, in
absolute time `Queue(e)` links `e` immediately before the first entry whose
cumulative delay is strictly greater than the input `Delay` (at the tail when
there is none); when moreover every entry other than the head has
`Delay ≥ 0`, every entry behind `e` is strictly later, so `e` is behind every
entry with the same absolute time, in insertion order; and a second event
with the same `Delay`, queued next without overflow, sits right behind the
first, whatever the queue. -/
theorem Queue_strict_tie_break (q : Scheduler) (e : Event) (h : QueueNoOverflow q e) :
    absolute 0 (Scheduler.Queue q e) =
        (absolute 0 q).takeWhile (fun x => decide (x.Delay ≤ e.Delay)) ++
          e :: (absolute 0 q).dropWhile (fun x => decide (x.Delay ≤ e.Delay)) ∧
      (SignInv q →
        ∀ x ∈ (absolute 0 q).dropWhile (fun x => decide (x.Delay ≤ e.Delay)),
          e.Delay < x.Delay) ∧
      (∀ e2 : Event, e2.Delay = e.Delay → QueueNoOverflow (Scheduler.Queue q e) e2 →
        absolute 0 (Scheduler.Queue (Scheduler.Queue q e) e2) =
          (absolute 0 q).takeWhile (fun x => decide (x.Delay ≤ e.Delay)) ++
            e :: e2 :: (absolute 0 q).dropWhile (fun x => decide (x.Delay ≤ e.Delay))) := by
  have hx := exact_Queue_strict_tie_break q e
  refine ⟨?_, hx.2.1, ?_⟩
  · rw [Queue_eq_exact q e h]; exact hx.1
  · intro e2 h2 hfit
    rw [Queue_eq_exact _ e2 hfit, Queue_eq_exact q e h]
    exact hx.2.2 e2 h2

/-- C7 amended, at the test case "two immediate": `tock` queued behind `tick`. -/
theorem Queue_strict_tie_break_witness :
    absolute 0 (Scheduler.Queue [⟨0, 0, "tick", []⟩] ⟨0, 0, "tock", []⟩) =
        (absolute 0 [⟨0, 0, "tick", []⟩]).takeWhile (fun x => decide (x.Delay ≤ 0)) ++
          ⟨0, 0, "tock", []⟩ ::
            (absolute 0 [⟨0, 0, "tick", []⟩]).dropWhile (fun x => decide (x.Delay ≤ 0)) ∧
      (SignInv [⟨0, 0, "tick", []⟩] →
        ∀ x ∈ (absolute 0 [⟨0, 0, "tick", []⟩]).dropWhile (fun x => decide (x.Delay ≤ 0)),
          (0 : Int) < x.Delay) ∧
      (∀ e2 : Event, e2.Delay = 0 →
        QueueNoOverflow (Scheduler.Queue [⟨0, 0, "tick", []⟩] ⟨0, 0, "tock", []⟩) e2 →
        absolute 0
            (Scheduler.Queue (Scheduler.Queue [⟨0, 0, "tick", []⟩] ⟨0, 0, "tock", []⟩) e2) =
          (absolute 0 [⟨0, 0, "tick", []⟩]).takeWhile (fun x => decide (x.Delay ≤ 0)) ++
            ⟨0, 0, "tock", []⟩ :: e2 ::
              (absolute 0 [⟨0, 0, "tick", []⟩]).dropWhile (fun x => decide (x.Delay ≤ 0))) :=
  Queue_strict_tie_break [⟨0, 0, "tick", []⟩] ⟨0, 0, "tock", []⟩ (by decide)

/-- C8, the claim refuted as stated. On the queue `[a:-2^63]`, `Tick(1)`
overflows: the head's `Delay` becomes `2^63 - 1`, not `-2^63 - 1`, and its
cumulative delay goes up. -/
theorem Tick_overflow_wraps :
    Scheduler.Tick [⟨-9223372036854775808, 0, "a", []⟩] 1 =
      [⟨9223372036854775807, 0, "a", []⟩] ∧
    cumulativeDelay [⟨-9223372036854775808, 0, "a", []⟩] 0 = -9223372036854775808 ∧
    cumulativeDelay (Scheduler.Tick [⟨-9223372036854775808, 0, "a", []⟩] 1) 0 =
      9223372036854775807 := by
  decide

/-- C8, amended. `Tick(n)` leaves the empty queue empty; on a non-empty queue
it replaces the head's `Delay` by the `int64` difference `Delay - n` and
changes nothing else; when that subtraction does not overflow, the head's
`Delay` is lowered by `n` and the cumulative delay of every entry decreases
by exactly `n`. -/
theorem Tick_subtracts_from_head_only (n : Int) :
    Scheduler.Tick [] n = [] ∧
      (∀ (first : Event) (rest : List Event),
        Scheduler.Tick (first :: rest) n =
          ⟨wrap64 (first.Delay - n), first.Repeat, first.Name, first.What⟩ :: rest) ∧
      (∀ (first : Event) (rest : List Event), InInt64 (first.Delay - n) →
        Scheduler.Tick (first :: rest) n =
          ⟨first.Delay - n, first.Repeat, first.Name, first.What⟩ :: rest) ∧
      (∀ q : Scheduler, TickNoOverflow q n → absolute 0 (Scheduler.Tick q n) =
        (absolute 0 q).map (fun e => { e with Delay := e.Delay - n })) := by
  refine ⟨rfl, fun first rest => rfl, ?_, ?_⟩
  · intro first rest h
    simp only [Scheduler.Tick, wrap64_eq _ h]
  · intro q h
    rw [Tick_eq_exact q n h]
    exact absolute_Tick q n

/-- C17, the claim refuted as stated. On the queue `[x:9223372036854775807]`
the events `{-1,0,a}` and `{0,0,b}` have different `Delay`; `Queue(a)` makes
`x` overflow, and the two orders give `a, x, b` and `a, b, x`. -/
theorem Queue_overflow_order_matters :
    Scheduler.Queue (Scheduler.Queue [⟨9223372036854775807, 0, "x", []⟩] ⟨-1, 0, "a", []⟩)
        ⟨0, 0, "b", []⟩ =
      [⟨-1, 0, "a", []⟩, ⟨-9223372036854775808, 0, "x", []⟩,
        ⟨-9223372036854775807, 0, "b", []⟩] ∧
    Scheduler.Queue (Scheduler.Queue [⟨9223372036854775807, 0, "x", []⟩] ⟨0, 0, "b", []⟩)
        ⟨-1, 0, "a", []⟩ =
      [⟨-1, 0, "a", []⟩, ⟨1, 0, "b", []⟩, ⟨9223372036854775807, 0, "x", []⟩] := by
  decide

/-- C17, amended. For every queue and every two events with different input
`Delay`, when none of the four `Queue` calls does a subtraction that
overflows `int64`, `Queue(a)` then `Queue(b)` gives the same queue, entry for
entry and `Delay` for `Delay`, as `Queue(b)` then `Queue(a)`. -/
theorem Queue_order_irrelevant (q : Scheduler) (a b : Event) (h : a.Delay ≠ b.Delay)
    (ha : QueueNoOverflow q a) (hab : QueueNoOverflow (Scheduler.Queue q a) b)
    (hb : QueueNoOverflow q b) (hba : QueueNoOverflow (Scheduler.Queue q b) a) :
    Scheduler.Queue (Scheduler.Queue q a) b = Scheduler.Queue (Scheduler.Queue q b) a := by
  rw [Queue_eq_exact _ b hab, Queue_eq_exact _ a hba, Queue_eq_exact q a ha,
    Queue_eq_exact q b hb]
  rcases lt_or_gt_of_ne h with h1 | h1
  · exact Queue_comm_lt q a b h1
  · exact (Queue_comm_lt q b a h1).symm

/-- C17 amended, at the test case "insert before": `{1,0,tock}` then
`{0,0,tick}` on the new scheduler puts `tick` before `tock`, as the other
order does. -/
theorem Queue_order_irrelevant_witness :
    Scheduler.Queue (Scheduler.Queue NewScheduler ⟨1, 0, "tock", []⟩) ⟨0, 0, "tick", []⟩ =
        Scheduler.Queue (Scheduler.Queue NewScheduler ⟨0, 0, "tick", []⟩) ⟨1, 0, "tock", []⟩ ∧
      Scheduler.Queue (Scheduler.Queue NewScheduler ⟨1, 0, "tock", []⟩) ⟨0, 0, "tick", []⟩ =
        [⟨0, 0, "tick", []⟩, ⟨1, 0, "tock", []⟩] :=
  ⟨Queue_order_irrelevant NewScheduler ⟨1, 0, "tock", []⟩ ⟨0, 0, "tick", []⟩ (by decide)
      (by decide) (by decide) (by decide) (by decide),
    by decide⟩

/-! ## The code at the failing inputs of the drain -/

/-- C2, the code at the failing input. After `Queue {0,2,tick}`,
`Queue {3,2,tock}`, a drain, `Tick(1)` and `Tick(4)` the queue is
`[tick:-3, tock:1]`, so both entries have a cumulative delay `≤ 0` (`-3` and
`-2`); the drain sends `tick` only and leaves `tock` queued. -/
theorem collapse_drain_sends_tick_only :
    run 2 [Op.queue ⟨0, 2, "tick", []⟩, Op.queue ⟨3, 2, "tock", []⟩, Op.drain, Op.tick 1,
        Op.tick 4] NewScheduler =
      some ([⟨-3, 2, "tick", []⟩, ⟨1, 2, "tock", []⟩], [[⟨0, 2, "tick", []⟩]]) ∧
    absolute 0 [⟨-3, 2, "tick", []⟩, ⟨1, 2, "tock", []⟩] =
      [⟨-3, 2, "tick", []⟩, ⟨-2, 2, "tock", []⟩] ∧
    Scheduler.putTriggeredEventsToChannel 2 [⟨-3, 2, "tick", []⟩, ⟨1, 2, "tock", []⟩] =
      some ([⟨-3, 2, "tick", []⟩], [⟨1, 2, "tock", []⟩, ⟨1, 2, "tick", []⟩]) := by
  decide

/-- C3, the code at the failing input. After `Queue {0,2,tick}`,
`Queue {3,2,tock}`, a drain, `Tick(1)`, `Tick(4)` and a second drain, `tock` is
the head and the sum of `Delay` through it is `1`; it was inserted with
`Delay` `3` and ticks of `1 + 4` followed, so its absolute remaining time
is `3 - 5 = -2`. -/
theorem collapse_run_breaks_delta_invariant :
    run 2 [Op.queue ⟨0, 2, "tick", []⟩, Op.queue ⟨3, 2, "tock", []⟩, Op.drain, Op.tick 1,
        Op.tick 4, Op.drain] NewScheduler =
      some ([⟨1, 2, "tock", []⟩, ⟨1, 2, "tick", []⟩],
        [[⟨0, 2, "tick", []⟩], [⟨-3, 2, "tick", []⟩]]) ∧
    cumulativeDelay [⟨1, 2, "tock", []⟩, ⟨1, 2, "tick", []⟩] 0 = 1 ∧
    (3 : Int) - (1 + 4) ≠ cumulativeDelay [⟨1, 2, "tock", []⟩, ⟨1, 2, "tick", []⟩] 0 := by
  decide

/-- C12, the code at the failing input. On the new scheduler `Queue {-5,0,a}`
leaves `[a:-5]`; `Queue {-2,0,b}` then walks past `a` and pushes `b` back with
`Delay` `-2 - (-5) = 3`, cumulative delay `-2`; the drain sends `a` only and
leaves `b` queued with `Delay` `3`. -/
theorem negative_Delay_behind_overdue_head_not_sent :
    Scheduler.Queue (Scheduler.Queue NewScheduler ⟨-5, 0, "a", []⟩) ⟨-2, 0, "b", []⟩ =
        [⟨-5, 0, "a", []⟩, ⟨3, 0, "b", []⟩] ∧
    absolute 0 [⟨-5, 0, "a", []⟩, ⟨3, 0, "b", []⟩] =
        [⟨-5, 0, "a", []⟩, ⟨-2, 0, "b", []⟩] ∧
    run 2 [Op.queue ⟨-5, 0, "a", []⟩, Op.queue ⟨-2, 0, "b", []⟩, Op.drain] NewScheduler =
        some ([⟨3, 0, "b", []⟩], [[⟨-5, 0, "a", []⟩]]) := by
  decide

/-- C13, the code at the failing input. The single entry `{0,-1,a}` is not
discarded when it is sent: `Repeat` is not `0`, so it is queued again as
`[a:-1]`, due again, and the drain has not ended after `10` sends, while with
`Repeat = 0` the drain sends it once and leaves the queue empty. In
`[a:0, b:-5]` with `Repeat` `-3` for `a` the drain ends and leaves `a`, queued
again, where `Repeat = 0` leaves nothing. -/
theorem negative_Repeat_not_discarded :
    Scheduler.putTriggeredEventsToChannel 10 [⟨0, -1, "a", []⟩] = none ∧
    Scheduler.Queue [] { (⟨0, -1, "a", []⟩ : Event) with Delay := -1 } = [⟨-1, -1, "a", []⟩] ∧
    Scheduler.putTriggeredEventsToChannel 10 [⟨0, 0, "a", []⟩] =
      some ([⟨0, 0, "a", []⟩], []) ∧
    Scheduler.putTriggeredEventsToChannel 10 [⟨0, -3, "a", []⟩, ⟨-5, 0, "b", []⟩] =
      some ([⟨0, -3, "a", []⟩, ⟨-5, 0, "b", []⟩], [⟨2, -3, "a", []⟩]) ∧
    Scheduler.putTriggeredEventsToChannel 10 [⟨0, 0, "a", []⟩, ⟨-5, 0, "b", []⟩] =
      some ([⟨0, 0, "a", []⟩, ⟨-5, 0, "b", []⟩], []) := by
  decide

/-! ## The drain loop of the code -/

theorem code_Tick_length (q : Scheduler) (n : Int) :
    (Scheduler.Tick q n).length = q.length := by
  cases q <;> rfl

theorem code_Tick_map_static (q : Scheduler) (n : Int) :
    (Scheduler.Tick q n).map Event.static = q.map Event.static := by
  cases q <;> rfl

theorem code_Tick_Repeat (q : Scheduler) (n : Int) (hR : ∀ e ∈ q, 0 ≤ e.Repeat) :
    ∀ e ∈ Scheduler.Tick q n, 0 ≤ e.Repeat := by
  cases q with
  | nil => intro e he; simp [Scheduler.Tick] at he
  | cons first rest =>
    intro e he
    simp only [Scheduler.Tick, List.mem_cons] at he
    rcases he with rfl | he
    · exact hR first (List.mem_cons_self _ _)
    · exact hR e (List.mem_cons_of_mem _ he)

/-- `Tick` keeps the sign invariant, overflow or not: it writes the head only. -/
theorem code_SignInv_Tick (q : Scheduler) (n : Int) (hq : SignInv q) :
    SignInv (Scheduler.Tick q n) := by
  cases q with
  | nil => exact hq
  | cons x rest => exact hq

/-- `Queue` adds the event's `Repeat`, `Name` and `What` to those queued and
changes none, overflow or not. -/
theorem code_Queue_static_perm (q : Scheduler) : ∀ e : Event,
    List.Perm ((Scheduler.Queue q e).map Event.static) (e.static :: q.map Event.static) := by
  induction q with
  | nil => intro e; simp [Scheduler.Queue]
  | cons x rest ih =>
    intro e
    by_cases h : x.Delay > e.Delay
    · simp only [Scheduler.Queue, h, if_true, List.map_cons]
      exact List.Perm.refl _
    · simp only [Scheduler.Queue, h, if_false, List.map_cons]
      have h1 := ih { e with Delay := wrap64 (e.Delay - x.Delay) }
      exact (List.Perm.cons _ h1).trans (List.Perm.swap _ _ _)

theorem code_drain_noneDue (fuel : Nat) (q : Scheduler) (h : NoneDue q) :
    Scheduler.putTriggeredEventsToChannel fuel q = some ([], q) := by
  cases q with
  | nil => cases fuel <;> rfl
  | cons first rest =>
    have h0 : first.Delay > 0 := h
    cases fuel <;> simp [Scheduler.putTriggeredEventsToChannel, h0]

/-- A completed drain leaves no due head. -/
theorem code_noneDue_of_drain :
    ∀ (fuel : Nat) (q : Scheduler) (sent : List Event) (left : Scheduler),
      Scheduler.putTriggeredEventsToChannel fuel q = some (sent, left) → NoneDue left := by
  intro fuel
  induction fuel with
  | zero =>
    intro q sent left h
    cases q with
    | nil =>
      simp only [Scheduler.putTriggeredEventsToChannel, Option.some.injEq, Prod.mk.injEq] at h
      rw [← h.2]; trivial
    | cons first rest =>
      by_cases h0 : first.Delay > 0
      · simp only [Scheduler.putTriggeredEventsToChannel, h0, if_true, Option.some.injEq,
          Prod.mk.injEq] at h
        rw [← h.2]; exact h0
      · simp [Scheduler.putTriggeredEventsToChannel, h0] at h
  | succ fuel ih =>
    intro q sent left h
    cases q with
    | nil =>
      simp only [Scheduler.putTriggeredEventsToChannel, Option.some.injEq, Prod.mk.injEq] at h
      rw [← h.2]; trivial
    | cons first rest =>
      by_cases h0 : first.Delay > 0
      · simp only [Scheduler.putTriggeredEventsToChannel, h0, if_true, Option.some.injEq,
          Prod.mk.injEq] at h
        rw [← h.2]; exact h0
      · simp only [Scheduler.putTriggeredEventsToChannel, h0, if_false] at h
        split at h
        · exact absurd h (by simp)
        · rename_i sent2 left2 heq
          simp only [Option.some.injEq, Prod.mk.injEq] at h
          rw [← h.2]
          exact ih _ _ _ heq

/-- Conservation: after a completed drain, the entries left together with
the sent events that have no `Repeat` are, up to `Delay`, the entries the
drain started from. -/
theorem code_drain_conservation :
    ∀ (fuel : Nat) (q : Scheduler) (sent : List Event) (left : Scheduler),
      Scheduler.putTriggeredEventsToChannel fuel q = some (sent, left) →
        List.Perm ((left ++ sent.filter (fun e => decide (e.Repeat = 0))).map Event.static)
          (q.map Event.static) := by
  intro fuel
  induction fuel with
  | zero =>
    intro q sent left h
    cases q with
    | nil =>
      simp only [Scheduler.putTriggeredEventsToChannel, Option.some.injEq, Prod.mk.injEq] at h
      rw [← h.1, ← h.2]; simp
    | cons first rest =>
      by_cases h0 : first.Delay > 0
      · simp only [Scheduler.putTriggeredEventsToChannel, h0, if_true, Option.some.injEq,
          Prod.mk.injEq] at h
        rw [← h.1, ← h.2]; simp
      · simp [Scheduler.putTriggeredEventsToChannel, h0] at h
  | succ fuel ih =>
    intro q sent left h
    cases q with
    | nil =>
      simp only [Scheduler.putTriggeredEventsToChannel, Option.some.injEq, Prod.mk.injEq] at h
      rw [← h.1, ← h.2]; simp
    | cons first rest =>
      by_cases h0 : first.Delay > 0
      · simp only [Scheduler.putTriggeredEventsToChannel, h0, if_true, Option.some.injEq,
          Prod.mk.injEq] at h
        rw [← h.1, ← h.2]; simp
      · simp only [Scheduler.putTriggeredEventsToChannel, h0, if_false] at h
        split at h
        · exact absurd h (by simp)
        · rename_i sent2 left2 heq
          simp only [Option.some.injEq, Prod.mk.injEq] at h
          rw [← h.1, ← h.2]
          have h1 := ih _ _ _ heq
          by_cases hr : first.Repeat = 0
          · simp only [hr, ne_eq, not_true_eq_false, if_false] at h1
            simp only [List.filter_cons, hr, decide_True, if_true, List.map_append,
              List.map_cons] at h1 ⊢
            exact List.perm_middle.trans (List.Perm.cons _ h1)
          · simp only [hr, ne_eq, not_false_eq_true, if_true] at h1
            have h2 := code_Queue_static_perm rest { first with Delay := first.Repeat }
            simp only [List.filter_cons, hr, decide_False, Bool.false_eq_true, if_false,
              List.map_cons]
            exact h1.trans h2

/-- Whatever a completed drain sent or left has the `Repeat`, `Name` and `What`
of an entry of the queue it started from. -/
theorem code_drain_static :
    ∀ (fuel : Nat) (q : Scheduler) (sent : List Event) (left : Scheduler),
      Scheduler.putTriggeredEventsToChannel fuel q = some (sent, left) →
        ∀ x ∈ sent ++ left, x.static ∈ q.map Event.static := by
  intro fuel
  induction fuel with
  | zero =>
    intro q sent left h x hx
    cases q with
    | nil =>
      simp only [Scheduler.putTriggeredEventsToChannel, Option.some.injEq, Prod.mk.injEq] at h
      rw [← h.1, ← h.2] at hx; simp at hx
    | cons first rest =>
      by_cases h0 : first.Delay > 0
      · simp only [Scheduler.putTriggeredEventsToChannel, h0, if_true, Option.some.injEq,
          Prod.mk.injEq] at h
        rw [← h.1, ← h.2] at hx
        exact List.mem_map_of_mem _ (by simpa using hx)
      · simp [Scheduler.putTriggeredEventsToChannel, h0] at h
  | succ fuel ih =>
    intro q sent left h x hx
    cases q with
    | nil =>
      simp only [Scheduler.putTriggeredEventsToChannel, Option.some.injEq, Prod.mk.injEq] at h
      rw [← h.1, ← h.2] at hx; simp at hx
    | cons first rest =>
      by_cases h0 : first.Delay > 0
      · simp only [Scheduler.putTriggeredEventsToChannel, h0, if_true, Option.some.injEq,
          Prod.mk.injEq] at h
        rw [← h.1, ← h.2] at hx
        exact List.mem_map_of_mem _ (by simpa using hx)
      · simp only [Scheduler.putTriggeredEventsToChannel, h0, if_false] at h
        split at h
        · exact absurd h (by simp)
        · rename_i sent2 left2 heq
          simp only [Option.some.injEq, Prod.mk.injEq] at h
          rw [← h.1, ← h.2] at hx
          simp only [List.cons_append, List.mem_cons] at hx
          rcases hx with rfl | hx
          · exact List.mem_map_of_mem _ (List.mem_cons_self _ _)
          · have h1 := ih _ _ _ heq x hx
            by_cases hr : first.Repeat = 0
            · simp only [hr, ne_eq, not_true_eq_false, if_false] at h1
              simp only [List.map_cons, List.mem_cons]
              exact Or.inr h1
            · simp only [hr, ne_eq, not_false_eq_true, if_true] at h1
              have h2 :=
                (code_Queue_static_perm rest { first with Delay := first.Repeat }).subset h1
              simpa [Event.static] using h2

/-- A drain of a queue of `int64` values with the sign invariant and no
negative `Repeat` ends, having sent the leading run of due entries; the queue
it leaves has the sign invariant, no due head, `int64` values, no negative
`Repeat` and no more entries than before. -/
theorem code_drain_result (q : Scheduler) (fuel : Nat) (hS : SignInv q)
    (hT : ∀ x ∈ q, x.IsInt64) (hR : ∀ e ∈ q, 0 ≤ e.Repeat) (hf : q.length ≤ fuel) :
    ∃ left, Scheduler.putTriggeredEventsToChannel fuel q = some (q.takeWhile due, left) ∧
      SignInv left ∧ NoneDue left ∧ (∀ x ∈ left, x.IsInt64) ∧ (∀ e ∈ left, 0 ≤ e.Repeat) ∧
      left.length ≤ q.length := by
  have heq := drain_eq_exact fuel q hS hT hR
  have hd := drain_eq q fuel hR hf
  obtain ⟨sent, left, hd2, hS2, hN2, hR2, hl⟩ := drain_result q fuel hS hR hf
  rw [hd] at hd2
  simp only [Option.some.injEq, Prod.mk.injEq] at hd2
  rw [hd] at heq
  rw [hd2.2] at heq
  exact ⟨left, heq, hS2, hN2, drain_IsInt64 fuel q _ left heq hT, hR2, hl⟩

/-! ## Claims about the drain -/

/-- C6. In a queue of `int64` values whose entries other than the head have
`Delay ≥ 0` and whose events have `Repeat ≥ 0` (the head's `Delay` is free), a
drain ends and leaves, in absolute time, exactly the undue rest of the queue
and every sent event with `Repeat > 0`, each at cumulative delay equal to its
`Repeat`. -/
theorem drain_requeues_at_Repeat (q : Scheduler) (hS : SignInv q)
    (hT : ∀ x ∈ q, x.IsInt64) (hR : ∀ e ∈ q, 0 ≤ e.Repeat) (fuel : Nat)
    (hf : q.length ≤ fuel) :
    ∃ sent left, Scheduler.putTriggeredEventsToChannel fuel q = some (sent, left) ∧
      List.Perm (absolute 0 left)
        (absolute 0 (q.dropWhile due) ++
          (sent.filter (fun e => decide (0 < e.Repeat))).map
            (fun e => { e with Delay := e.Repeat })) ∧
      ∀ e ∈ sent, 0 < e.Repeat → ({ e with Delay := e.Repeat } : Event) ∈ absolute 0 left := by
  rw [drain_eq_exact fuel q hS hT hR]
  exact exact_drain_requeues_at_Repeat q hS hR fuel hf

/-- C6 at the overrun queue `[tick:-3, tock:1]`. -/
theorem drain_requeues_at_Repeat_witness :
    ∃ sent left,
      Scheduler.putTriggeredEventsToChannel 2 [⟨-3, 2, "tick", []⟩, ⟨1, 2, "tock", []⟩] =
        some (sent, left) ∧
      List.Perm (absolute 0 left)
        (absolute 0 (([⟨-3, 2, "tick", []⟩, ⟨1, 2, "tock", []⟩] : Scheduler).dropWhile due) ++
          (sent.filter (fun e => decide (0 < e.Repeat))).map
            (fun e => { e with Delay := e.Repeat })) ∧
      ∀ e ∈ sent, 0 < e.Repeat → ({ e with Delay := e.Repeat } : Event) ∈ absolute 0 left :=
  drain_requeues_at_Repeat [⟨-3, 2, "tick", []⟩, ⟨1, 2, "tock", []⟩] (by decide) (by decide)
    (by decide) 2 (by decide)

/-- C10. A drain of a queue that is empty or whose head has `Delay > 0` sends
nothing and leaves the queue as it is; a completed drain, of any queue, ends
in such a queue, so a second drain right after it sends nothing and changes
nothing; and a drain does complete on a queue of `int64` values with the
sign invariant and no negative `Repeat`. -/
theorem drain_without_due_is_noop :
    (∀ (fuel : Nat) (q : Scheduler), NoneDue q →
      Scheduler.putTriggeredEventsToChannel fuel q = some ([], q)) ∧
    (∀ (fuel : Nat) (q : Scheduler) (sent : List Event) (left : Scheduler),
      Scheduler.putTriggeredEventsToChannel fuel q = some (sent, left) →
        ∀ fuel2 : Nat, Scheduler.putTriggeredEventsToChannel fuel2 left = some ([], left)) ∧
    (∀ (q : Scheduler) (fuel : Nat), SignInv q → (∀ x ∈ q, x.IsInt64) →
      (∀ e ∈ q, 0 ≤ e.Repeat) → q.length ≤ fuel →
        ∃ sent left, Scheduler.putTriggeredEventsToChannel fuel q = some (sent, left)) := by
  refine ⟨code_drain_noneDue, ?_, ?_⟩
  · intro fuel q sent left h fuel2
    exact code_drain_noneDue fuel2 left (code_noneDue_of_drain fuel q sent left h)
  · intro q fuel hS hT hR hf
    obtain ⟨left, hd, _⟩ := code_drain_result q fuel hS hT hR hf
    exact ⟨_, left, hd⟩

/-- C11. Fire once versus repeat: after a completed drain the entries left,
together with the sent events whose `Repeat` is `0`, are, up to the `Delay`
fields, exactly the entries of the queue before: the queue keeps every entry
that was not sent and every sent entry with a `Repeat`, once each, and no
sent entry without one; so the length after the drain is the length before
minus the number of sent events with `Repeat = 0`. On a queue of `int64`
values with the sign invariant and no negative `Repeat` the drain completes,
what it sends is an initial segment of the queue, and it leaves the rest and
each sent entry with `Repeat > 0`. -/
theorem drain_fire_once_or_requeue :
    (∀ (fuel : Nat) (q : Scheduler) (sent : List Event) (left : Scheduler),
      Scheduler.putTriggeredEventsToChannel fuel q = some (sent, left) →
        List.Perm ((left ++ sent.filter (fun e => decide (e.Repeat = 0))).map Event.static)
          (q.map Event.static) ∧
        left.length + (sent.filter (fun e => decide (e.Repeat = 0))).length = q.length) ∧
    (∀ (q : Scheduler) (fuel : Nat), SignInv q → (∀ x ∈ q, x.IsInt64) →
      (∀ e ∈ q, 0 ≤ e.Repeat) → q.length ≤ fuel →
        ∃ sent left rest, Scheduler.putTriggeredEventsToChannel fuel q = some (sent, left) ∧
          q = sent ++ rest ∧
          List.Perm (left.map Event.static)
            ((rest ++ sent.filter (fun e => decide (0 < e.Repeat))).map Event.static)) := by
  constructor
  · intro fuel q sent left h
    have h1 := code_drain_conservation fuel q sent left h
    refine ⟨h1, ?_⟩
    have h2 := h1.length_eq
    simpa using h2
  · intro q fuel hS hT hR hf
    have heq := drain_eq_exact fuel q hS hT hR
    have hd := drain_eq q fuel hR hf
    have hperm := requeueAll_static_perm (q.takeWhile due) (q.dropWhile due)
    have hRs : ∀ e ∈ q.takeWhile due, 0 ≤ e.Repeat :=
      fun e he => hR e ((List.takeWhile_prefix due).subset he)
    refine ⟨_, _, q.dropWhile due, heq.trans hd,
      (List.takeWhile_append_dropWhile due q).symm, ?_⟩
    rw [← filter_Repeat_pos _ hRs]; exact hperm

theorem code_Queue_length (q : Scheduler) (e : Event) :
    (Scheduler.Queue q e).length = q.length + 1 := by
  have h := (code_Queue_static_perm q e).length_eq
  simpa using h

theorem code_Queue_Repeat (q : Scheduler) (e : Event) (hq : ∀ x ∈ q, 0 ≤ x.Repeat)
    (he : 0 ≤ e.Repeat) : ∀ x ∈ Scheduler.Queue q e, 0 ≤ x.Repeat := by
  intro x hx
  have h1 : x.static ∈ (Scheduler.Queue q e).map Event.static := List.mem_map_of_mem _ hx
  have h2 := (code_Queue_static_perm q e).subset h1
  rcases List.mem_cons.mp h2 with h3 | h3
  · have : x.Repeat = e.Repeat := congrArg Prod.fst h3
    omega
  · obtain ⟨y, hy, hxy⟩ := List.mem_map.mp h3
    have : y.Repeat = x.Repeat := congrArg Prod.fst hxy
    have := hq y hy
    omega

/-- `Queue` keeps the sign invariant when none of its subtractions overflows. -/
theorem code_SignInv_Queue (q : Scheduler) (e : Event) (h : QueueNoOverflow q e)
    (hq : SignInv q) : SignInv (Scheduler.Queue q e) := by
  rw [Queue_eq_exact q e h]
  exact SignInv_Queue q e hq

/-- A run of `Queue`, `Tick` and drains in which no `Queue` overflows, on
`int64` values without negative `Repeat`, from a queue with the sign
invariant, completes and ends in a queue with the sign invariant. -/
theorem code_run_SignInv (fuel : Nat) (ops : List Op) : ∀ s : Scheduler,
    SignInv s → (∀ x ∈ s, x.IsInt64) → (∀ e ∈ s, 0 ≤ e.Repeat) →
    (∀ e, Op.queue e ∈ ops → e.IsInt64) → (∀ e, Op.queue e ∈ ops → 0 ≤ e.Repeat) →
    QueuesNoOverflow fuel ops s → s.length + ops.length ≤ fuel →
      ∃ final sents, run fuel ops s = some (final, sents) ∧ SignInv final ∧
        (∀ x ∈ final, x.IsInt64) ∧ (∀ e ∈ final, 0 ≤ e.Repeat) ∧
        final.length ≤ s.length + ops.length := by
  induction ops with
  | nil => intro s hS hT hR _ _ _ _; exact ⟨s, [], rfl, hS, hT, hR, by simp⟩
  | cons op ops ih =>
    intro s hS hT hR hopsT hopsR hQ hf
    have hopsT2 : ∀ e, Op.queue e ∈ ops → e.IsInt64 :=
      fun e he => hopsT e (List.mem_cons_of_mem _ he)
    have hopsR2 : ∀ e, Op.queue e ∈ ops → 0 ≤ e.Repeat :=
      fun e he => hopsR e (List.mem_cons_of_mem _ he)
    simp only [List.length_cons] at hf ⊢
    cases op with
    | queue e =>
      have heT : e.IsInt64 := hopsT e (List.mem_cons_self _ _)
      have heR : 0 ≤ e.Repeat := hopsR e (List.mem_cons_self _ _)
      simp only [QueuesNoOverflow] at hQ
      obtain ⟨final, sents, hrun, h1, h2, h3, h4⟩ :=
        ih (Scheduler.Queue s e) (code_SignInv_Queue s e hQ.1 hS) (Queue_IsInt64 s e hT heT)
          (code_Queue_Repeat s e hR heR) hopsT2 hopsR2 hQ.2
          (by rw [code_Queue_length]; omega)
      rw [code_Queue_length] at h4
      exact ⟨final, sents, by simpa [run] using hrun, h1, h2, h3, by omega⟩
    | tick n =>
      simp only [QueuesNoOverflow] at hQ
      obtain ⟨final, sents, hrun, h1, h2, h3, h4⟩ :=
        ih (Scheduler.Tick s n) (code_SignInv_Tick s n hS) (Tick_IsInt64 s n hT)
          (code_Tick_Repeat s n hR) hopsT2 hopsR2 hQ (by rw [code_Tick_length]; omega)
      rw [code_Tick_length] at h4
      exact ⟨final, sents, by simpa [run] using hrun, h1, h2, h3, by omega⟩
    | drain =>
      obtain ⟨left, hd, hS2, _, hT2, hR2, hl⟩ := code_drain_result s fuel hS hT hR (by omega)
      simp only [QueuesNoOverflow, hd] at hQ
      obtain ⟨final, sents, hrun, h1, h2, h3, h4⟩ :=
        ih left hS2 hT2 hR2 hopsT2 hopsR2 hQ (by omega)
      exact ⟨final, s.takeWhile due :: sents, by simp [run, hd, hrun], h1, h2, h3, by omega⟩

theorem run_append_drain (fuel : Nat) (ops : List Op) :
    ∀ (s final : Scheduler) (sents : List (List Event)) (sent : List Event) (left : Scheduler),
      run fuel ops s = some (final, sents) →
      Scheduler.putTriggeredEventsToChannel fuel final = some (sent, left) →
        run fuel (ops ++ [Op.drain]) s = some (left, sents ++ [sent]) := by
  induction ops with
  | nil =>
    intro s final sents sent left h hd
    simp only [run, Option.some.injEq, Prod.mk.injEq] at h
    rw [← h.1] at hd
    rw [← h.2]
    simp [run, hd]
  | cons op ops ih =>
    intro s final sents sent left h hd
    cases op with
    | queue e =>
      simp only [run] at h
      simpa [run] using ih _ _ _ _ _ h hd
    | tick n =>
      simp only [run] at h
      simpa [run] using ih _ _ _ _ _ h hd
    | drain =>
      simp only [run] at h
      split at h
      · exact absurd h (by simp)
      · rename_i sent1 left1 hd1
        split at h
        · exact absurd h (by simp)
        · rename_i final2 sents2 hrun
          simp only [Option.some.injEq, Prod.mk.injEq] at h
          have h2 := ih _ _ _ _ _ hrun (by rw [h.1]; exact hd)
          rw [← h.2]
          simp [run, hd1, h2]

/-- Every entry a completed run leaves or sends has the `Repeat`, `Name` and
`What` of an entry of the queue it started from or of an event it queued. -/
theorem code_run_static (fuel : Nat) (ops : List Op) :
    ∀ (s final : Scheduler) (sents : List (List Event)),
      run fuel ops s = some (final, sents) →
        ∀ x, (x ∈ final ∨ ∃ sent ∈ sents, x ∈ sent) →
          x.static ∈ s.map Event.static ∨ ∃ e, Op.queue e ∈ ops ∧ x.static = e.static := by
  induction ops with
  | nil =>
    intro s final sents h x hx
    simp only [run, Option.some.injEq, Prod.mk.injEq] at h
    rw [← h.1, ← h.2] at hx
    rcases hx with hx | ⟨sent, hs, _⟩
    · exact Or.inl (List.mem_map_of_mem _ hx)
    · simp at hs
  | cons op ops ih =>
    intro s final sents h x hx
    cases op with
    | queue e =>
      simp only [run] at h
      rcases ih _ _ _ h x hx with h1 | ⟨e2, he2, hxe⟩
      · rcases List.mem_cons.mp ((code_Queue_static_perm s e).subset h1) with h2 | h2
        · exact Or.inr ⟨e, List.mem_cons_self _ _, h2⟩
        · exact Or.inl h2
      · exact Or.inr ⟨e2, List.mem_cons_of_mem _ he2, hxe⟩
    | tick n =>
      simp only [run] at h
      rcases ih _ _ _ h x hx with h1 | ⟨e2, he2, hxe⟩
      · rw [code_Tick_map_static] at h1; exact Or.inl h1
      · exact Or.inr ⟨e2, List.mem_cons_of_mem _ he2, hxe⟩
    | drain =>
      simp only [run] at h
      split at h
      · exact absurd h (by simp)
      · rename_i sent left hd
        split at h
        · exact absurd h (by simp)
        · rename_i final2 sents2 hrun
          simp only [Option.some.injEq, Prod.mk.injEq] at h
          rw [← h.1, ← h.2] at hx
          have hfromleft : ∀ y : Event, y.static ∈ left.map Event.static →
              y.static ∈ s.map Event.static := by
            intro y hy
            obtain ⟨z, hz, hzy⟩ := List.mem_map.mp hy
            rw [← hzy]
            exact code_drain_static fuel s sent left hd z (List.mem_append_right _ hz)
          have hrec : ∀ y : Event, (y ∈ final2 ∨ ∃ t ∈ sents2, y ∈ t) →
              y.static ∈ s.map Event.static ∨
                ∃ e, Op.queue e ∈ Op.drain :: ops ∧ y.static = e.static := by
            intro y hy
            rcases ih _ _ _ hrun y hy with h1 | ⟨e2, he2, hxe⟩
            · exact Or.inl (hfromleft y h1)
            · exact Or.inr ⟨e2, List.mem_cons_of_mem _ he2, hxe⟩
          rcases hx with hx | ⟨t, ht, hxt⟩
          · exact hrec x (Or.inl hx)
          · rcases List.mem_cons.mp ht with rfl | ht
            · exact Or.inl (code_drain_static fuel s t left hd x (List.mem_append_left _ hxt))
            · exact hrec x (Or.inr ⟨t, ht, hxt⟩)

/-! ## Claims about whole runs -/

/-- C9, the claim refuted as stated. On the new scheduler
`Queue {9223372036854775807,0,a}`, `Queue {-1,0,e}` (which makes `a`
overflow to `-2^63`), `Tick(9223372036854775807)`, `Tick(1)` and a drain: no
`Repeat` is negative, the drain completes, sends nothing and leaves
`[e:2^63-1, a:-2^63]`, an entry with a negative `Delay`. -/
theorem run_overflow_leaves_negative_Delay :
    run 5 [Op.queue ⟨9223372036854775807, 0, "a", []⟩, Op.queue ⟨-1, 0, "e", []⟩,
        Op.tick 9223372036854775807, Op.tick 1, Op.drain] NewScheduler =
      some ([⟨9223372036854775807, 0, "e", []⟩, ⟨-9223372036854775808, 0, "a", []⟩], [[]]) := by
  decide

/-- C9, amended. For every sequence `ops` of `Queue`, `Tick` and drain
operations on a new scheduler in which every queued event has `int64` fields
and `Repeat ≥ 0` and no `Queue` does a subtraction that overflows `int64`, a
drain that follows `ops` completes and leaves every entry with `Delay ≥ 0`.
(A drain inside a sequence is the drain that follows the operations before
it; a `Tick` may overflow.) -/
theorem after_drain_all_Delay_nonneg (ops : List Op)
    (hT : ∀ e, Op.queue e ∈ ops → e.IsInt64) (hR : ∀ e, Op.queue e ∈ ops → 0 ≤ e.Repeat)
    (fuel : Nat) (hQ : QueuesNoOverflow fuel ops NewScheduler) (hf : ops.length ≤ fuel) :
    ∃ left sents, run fuel (ops ++ [Op.drain]) NewScheduler = some (left, sents) ∧
      ∀ e ∈ left, 0 ≤ e.Delay := by
  obtain ⟨final, sents, hrun, hS, hT2, hR2, hl⟩ := code_run_SignInv fuel ops NewScheduler
    (fun e he => by simp [NewScheduler] at he) (fun e he => by simp [NewScheduler] at he)
    (fun e he => by simp [NewScheduler] at he) hT hR hQ (by simpa [NewScheduler] using hf)
  have hl2 : final.length ≤ fuel := by
    simp only [NewScheduler, List.length_nil, zero_add] at hl
    omega
  obtain ⟨left, hd, hS3, hN3, _⟩ := code_drain_result final fuel hS hT2 hR2 hl2
  exact ⟨left, _, run_append_drain fuel ops _ _ _ _ _ hrun hd,
    nonneg_of_SignInv_noneDue left hS3 hN3⟩

/-- C9 amended, at the overrun run of the "collapse" test case. -/
theorem after_drain_all_Delay_nonneg_witness :
    ∃ left sents,
      run 5 ([Op.queue ⟨0, 2, "tick", []⟩, Op.queue ⟨3, 2, "tock", []⟩, Op.drain, Op.tick 1,
        Op.tick 4] ++ [Op.drain]) NewScheduler = some (left, sents) ∧
      ∀ e ∈ left, 0 ≤ e.Delay :=
  after_drain_all_Delay_nonneg
    [Op.queue ⟨0, 2, "tick", []⟩, Op.queue ⟨3, 2, "tock", []⟩, Op.drain, Op.tick 1, Op.tick 4]
    (by intro e he; simp at he; rcases he with rfl | rfl <;> decide)
    (by intro e he; simp at he; rcases he with rfl | rfl <;> decide) 5 (by decide) (by decide)

/-- C14. Payload pass-through: `Queue` adds the event's `Repeat`, `Name` and
`What` to those queued and changes none, `Tick` changes none, whatever a
drain sends or leaves carries those of an entry it started from; so in every
run from the new scheduler every entry, still queued or sent by a drain, has
the `Repeat`, `Name` and `What` of an event passed to `Queue`; and a run on
`int64` values without negative `Repeat`, in which no `Queue` overflows, does
complete. -/
theorem payload_pass_through :
    (∀ (q : Scheduler) (e : Event),
      List.Perm ((Scheduler.Queue q e).map Event.static) (e.static :: q.map Event.static)) ∧
    (∀ (q : Scheduler) (n : Int), (Scheduler.Tick q n).map Event.static = q.map Event.static) ∧
    (∀ (fuel : Nat) (q : Scheduler) (sent : List Event) (left : Scheduler),
      Scheduler.putTriggeredEventsToChannel fuel q = some (sent, left) →
        ∀ x ∈ sent ++ left, x.static ∈ q.map Event.static) ∧
    (∀ (fuel : Nat) (ops : List Op) (final : Scheduler) (sents : List (List Event)),
      run fuel ops NewScheduler = some (final, sents) →
        ∀ x, (x ∈ final ∨ ∃ sent ∈ sents, x ∈ sent) →
          ∃ e, Op.queue e ∈ ops ∧
            x.Repeat = e.Repeat ∧ x.Name = e.Name ∧ x.What = e.What) ∧
    (∀ (ops : List Op) (fuel : Nat), (∀ e, Op.queue e ∈ ops → e.IsInt64) →
      (∀ e, Op.queue e ∈ ops → 0 ≤ e.Repeat) → QueuesNoOverflow fuel ops NewScheduler →
      ops.length ≤ fuel → ∃ final sents, run fuel ops NewScheduler = some (final, sents)) := by
  refine ⟨code_Queue_static_perm, code_Tick_map_static, code_drain_static, ?_, ?_⟩
  · intro fuel ops final sents h x hx
    rcases code_run_static fuel ops NewScheduler final sents h x hx with h1 | ⟨e, he, hxe⟩
    · simp [NewScheduler] at h1
    · simp only [Event.static, Prod.mk.injEq] at hxe
      exact ⟨e, he, hxe.1, hxe.2.1, hxe.2.2⟩
  · intro ops fuel hT hR hQ hf
    obtain ⟨final, sents, h, _⟩ := code_run_SignInv fuel ops NewScheduler
      (fun e he => by simp [NewScheduler] at he) (fun e he => by simp [NewScheduler] at he)
      (fun e he => by simp [NewScheduler] at he) hT hR hQ (by simpa [NewScheduler] using hf)
    exact ⟨final, sents, h⟩

/-- C16, the claim refuted as stated. The queue `[a:9223372036854775807]` has
the sign invariant; `Queue` of an event with `Delay` `-1` links it before `a`
and lowers `a` by `-1`, which overflows to `-2^63`: the queue after has an
entry other than the head with a negative `Delay`. -/
theorem Queue_overflow_breaks_sign_invariant :
    SignInv [⟨9223372036854775807, 0, "a", []⟩] ∧
    Scheduler.Queue [⟨9223372036854775807, 0, "a", []⟩] ⟨-1, 0, "e", []⟩ =
      [⟨-1, 0, "e", []⟩, ⟨-9223372036854775808, 0, "a", []⟩] ∧
    ¬ SignInv [⟨-1, 0, "e", []⟩, ⟨-9223372036854775808, 0, "a", []⟩] := by
  decide

/-- C16, amended. Sign invariant: "every entry other than the head has
`Delay ≥ 0`" holds for the new scheduler; `Queue(e)` keeps it for every event
(negative `Delay` included) for which none of its subtractions overflows
`int64`; `Tick(n)` keeps it for every `n`; a drain of a queue of `int64`
values without negative `Repeat` ends and keeps it; and so every run of these
operations from the new scheduler in which no `Queue` overflows ends in a
queue that has it. -/
theorem sign_invariant_of_reachable :
    SignInv NewScheduler ∧
    (∀ (q : Scheduler) (e : Event), QueueNoOverflow q e → SignInv q →
      SignInv (Scheduler.Queue q e)) ∧
    (∀ (q : Scheduler) (n : Int), SignInv q → SignInv (Scheduler.Tick q n)) ∧
    (∀ (q : Scheduler) (fuel : Nat), SignInv q → (∀ x ∈ q, x.IsInt64) →
      (∀ e ∈ q, 0 ≤ e.Repeat) → q.length ≤ fuel →
      ∃ sent left, Scheduler.putTriggeredEventsToChannel fuel q = some (sent, left) ∧
        SignInv left) ∧
    (∀ (ops : List Op) (fuel : Nat), (∀ e, Op.queue e ∈ ops → e.IsInt64) →
      (∀ e, Op.queue e ∈ ops → 0 ≤ e.Repeat) → QueuesNoOverflow fuel ops NewScheduler →
      ops.length ≤ fuel →
      ∃ final sents, run fuel ops NewScheduler = some (final, sents) ∧ SignInv final) := by
  refine ⟨fun e he => by simp [NewScheduler] at he, code_SignInv_Queue, code_SignInv_Tick,
    ?_, ?_⟩
  · intro q fuel hS hT hR hf
    obtain ⟨left, hd, hS2, _⟩ := code_drain_result q fuel hS hT hR hf
    exact ⟨_, left, hd, hS2⟩
  · intro ops fuel hT hR hQ hf
    obtain ⟨final, sents, h, hS, _⟩ := code_run_SignInv fuel ops NewScheduler
      (fun e he => by simp [NewScheduler] at he) (fun e he => by simp [NewScheduler] at he)
      (fun e he => by simp [NewScheduler] at he) hT hR hQ (by simpa [NewScheduler] using hf)
    exact ⟨final, sents, h, hS⟩

/-! ## The unit-tick schedule of the code -/

/-- Queueing non-negative `int64` delays into a queue of such delays never
overflows: `SetUpQueue` computes what it computes in the integers, and the
queue it builds holds non-negative `int64` delays. -/
theorem foldl_Queue_eq_exact (events : List Event) : ∀ q : Scheduler,
    (∀ x ∈ q, 0 ≤ x.Delay ∧ x.IsInt64) → (∀ e ∈ events, 0 ≤ e.Delay ∧ e.IsInt64) →
      events.foldl Scheduler.Queue q = events.foldl Exact.Queue q ∧
        ∀ x ∈ events.foldl Exact.Queue q, 0 ≤ x.Delay ∧ x.IsInt64 := by
  induction events with
  | nil => intro q hq _; exact ⟨rfl, by simpa using hq⟩
  | cons e events ih =>
    intro q hq hev
    have he := hev e (List.mem_cons_self _ _)
    have hfit : QueueNoOverflow q e :=
      QueueNoOverflow_of_nonneg q e (fun x hx => ⟨(hq x hx).1, (hq x hx).2.1⟩) he.1 he.2.1
    have heq := Queue_eq_exact q e hfit
    have hq2 : ∀ x ∈ Exact.Queue q e, 0 ≤ x.Delay ∧ x.IsInt64 := by
      intro x hx
      refine ⟨Queue_nonneg q e (fun y hy => (hq y hy).1) he.1 x hx, ?_⟩
      rw [← heq] at hx
      exact Queue_IsInt64 q e (fun y hy => (hq y hy).2) he.2 x hx
    have h := ih (Exact.Queue q e) hq2 (fun x hx => hev x (List.mem_cons_of_mem _ hx))
    simp only [List.foldl_cons, heq]
    exact h

theorem foldl_Queue_Repeat (events : List Event) : ∀ q : Scheduler,
    (∀ x ∈ q, 0 ≤ x.Repeat) → (∀ e ∈ events, 0 ≤ e.Repeat) →
      (∀ x ∈ events.foldl Exact.Queue q, 0 ≤ x.Repeat) ∧
        (events.foldl Exact.Queue q).length = q.length + events.length := by
  induction events with
  | nil => intro q hq _; exact ⟨by simpa using hq, by simp⟩
  | cons e events ih =>
    intro q hq hev
    have h := ih (Exact.Queue q e) (Queue_Repeat q e hq (hev e (List.mem_cons_self _ _)))
      (fun x hx => hev x (List.mem_cons_of_mem _ hx))
    simp only [List.foldl_cons, List.length_cons]
    refine ⟨h.1, ?_⟩
    rw [h.2, Queue_length]
    omega

/-- After a drain of a queue with the sign invariant, `Tick(1)` does not
overflow and leaves every `Delay ≥ 0`. -/
theorem Tick_one_after_drain (left : Scheduler) (hS : SignInv left) (hN : NoneDue left)
    (hT : ∀ x ∈ left, x.IsInt64) :
    TickNoOverflow left 1 ∧ ∀ x ∈ Exact.Tick left 1, 0 ≤ x.Delay := by
  cases left with
  | nil => exact ⟨trivial, fun x hx => by simp [Exact.Tick] at hx⟩
  | cons y rest =>
    have hy : 0 < y.Delay := hN
    have hyT := (hT y (List.mem_cons_self _ _)).1
    unfold InInt64 at hyT
    refine ⟨?_, ?_⟩
    · show InInt64 (y.Delay - 1)
      unfold InInt64
      omega
    · intro x hx
      simp only [Exact.Tick, List.mem_cons] at hx
      rcases hx with rfl | hx
      · show 0 ≤ y.Delay - 1
        omega
      · exact hS x hx

/-- On a queue of non-negative `int64` delays without negative `Repeat` the
unit cycle never overflows: it computes what it computes in the integers. -/
theorem unitCycle_eq_exact (fuel : Nat) (t : Nat) : ∀ q : Scheduler,
    (∀ x ∈ q, 0 ≤ x.Delay) → (∀ x ∈ q, x.IsInt64) → (∀ e ∈ q, 0 ≤ e.Repeat) →
    q.length ≤ fuel → unitCycle fuel t q = Exact.unitCycle fuel t q := by
  induction t with
  | zero =>
    intro q hq hT hR hf
    have hS : SignInv q := fun e he => hq e (List.mem_of_mem_tail he)
    obtain ⟨left, hd, hS2, hN2, hT2, _, _⟩ := code_drain_result q fuel hS hT hR hf
    have hd2 := hd
    rw [drain_eq_exact fuel q hS hT hR] at hd2
    have ht := Tick_one_after_drain left hS2 hN2 hT2
    simp only [unitCycle, Exact.unitCycle, hd, hd2, Tick_eq_exact left 1 ht.1]
  | succ t ih =>
    intro q hq hT hR hf
    have hS : SignInv q := fun e he => hq e (List.mem_of_mem_tail he)
    obtain ⟨left, hd, hS2, hN2, hT2, hR2, hl⟩ := code_drain_result q fuel hS hT hR hf
    have hd2 := hd
    rw [drain_eq_exact fuel q hS hT hR] at hd2
    have ht := Tick_one_after_drain left hS2 hN2 hT2
    have heq := Tick_eq_exact left 1 ht.1
    have h := ih (Exact.Tick left 1) ht.2
      (by rw [← heq]; exact Tick_IsInt64 left 1 hT2) (Tick_Repeat left 1 hR2)
      (by rw [Tick_length]; omega)
    simp only [unitCycle, Exact.unitCycle, hd, hd2, heq, h]

/-- C4. Unit-tick schedule: when events with `int64` fields, `Delay ≥ 0` and
`Repeat ≥ 0` are queued into a new scheduler and the scheduler is driven by
"drain, then `Tick(1)`", drain number `t` completes and sends, up to order,
exactly the events queued with a `Delay` `d` and `Repeat` `R` such that
`t = d`, or `R > 0` and `t > d` and `t - d` is a multiple of `R` (each with
its `Delay` at `0`, since it is sent when due). -/
theorem unit_tick_schedule (events : List Event)
    (hev : ∀ e ∈ events, 0 ≤ e.Delay ∧ 0 ≤ e.Repeat) (hT : ∀ e ∈ events, e.IsInt64)
    (fuel : Nat) (hf : events.length ≤ fuel) (t : Nat) :
    ∃ sent s, unitCycle fuel t (SetUpQueue events) = some (sent, s) ∧
      List.Perm sent
        ((events.filter (fun e => decide (scheduledAt t e))).map
          (fun e => { e with Delay := 0 })) := by
  have h1 := foldl_Queue_eq_exact events NewScheduler
    (fun x hx => by simp [NewScheduler] at hx) (fun e he => ⟨(hev e he).1, hT e he⟩)
  have h2 := foldl_Queue_Repeat events NewScheduler
    (fun x hx => by simp [NewScheduler] at hx) (fun e he => (hev e he).2)
  have hset : SetUpQueue events = Exact.SetUpQueue events := h1.1
  have hlen : (Exact.SetUpQueue events).length = events.length := by
    have h3 := h2.2
    simpa [Exact.SetUpQueue, NewScheduler] using h3
  rw [hset, unitCycle_eq_exact fuel t (Exact.SetUpQueue events) (fun x hx => (h1.2 x hx).1)
    (fun x hx => (h1.2 x hx).2) h2.1 (by rw [hlen]; exact hf)]
  exact exact_unit_tick_schedule events hev fuel hf t

/-- C4 at drain `6` of the events `{0,2,tick}`, `{0,3,tock}`. -/
theorem unit_tick_schedule_witness :
    ∃ sent s,
      unitCycle 2 6 (SetUpQueue [⟨0, 2, "tick", []⟩, ⟨0, 3, "tock", []⟩]) = some (sent, s) ∧
      List.Perm sent
        ((([⟨0, 2, "tick", []⟩, ⟨0, 3, "tock", []⟩] : List Event).filter
          (fun e => decide (scheduledAt 6 e))).map (fun e => { e with Delay := 0 })) :=
  unit_tick_schedule [⟨0, 2, "tick", []⟩, ⟨0, 3, "tock", []⟩] (by decide) (by decide) 2
    (by decide) 6

/-- The test case "two different freq" on the embedding: the names sent by
drains `0` to `6` of the unit cycle. -/
theorem two_different_freq_run :
    (List.range 7).map (fun t =>
        (unitCycle 2 t (SetUpQueue [⟨0, 2, "tick", []⟩, ⟨0, 3, "tock", []⟩])).map
          (fun r => r.1.map Event.Name)) =
      [some ["tick", "tock"], some [], some ["tick"], some ["tock"], some ["tick"], some [],
        some ["tock", "tick"]] := by
  decide

/-! ## `Remove`, as the specification describes it -/

theorem Remove_append (pre : List Event) (name : String) (hpre : ∀ x ∈ pre, x.Name ≠ name)
    (l : List Event) : Scheduler.Remove (pre ++ l) name = pre ++ Scheduler.Remove l name := by
  induction pre with
  | nil => rfl
  | cons x pre ih =>
    have hx : ¬ (x.Name = name) := hpre x (List.mem_cons_self _ _)
    simp only [List.cons_append, Scheduler.Remove, hx, if_false, List.append_eq,
      ih (fun y hy => hpre y (List.mem_cons_of_mem _ hy))]

theorem absolute_Remove (q : Scheduler) (name : String) : ∀ now : Int,
    absolute now (Scheduler.Remove q name) =
      (absolute now q).eraseP (fun x => decide (x.Name = name)) := by
  induction q with
  | nil => intro now; rfl
  | cons e rest ih =>
    intro now
    by_cases h : e.Name = name
    · cases rest with
      | nil => simp [Scheduler.Remove, h, absolute, List.eraseP_cons]
      | cons next rest2 =>
        have h1 : now + (next.Delay + e.Delay) = now + e.Delay + next.Delay := by omega
        simp [Scheduler.Remove, h, absolute, List.eraseP_cons, h1]
    · simp [Scheduler.Remove, h, absolute, List.eraseP_cons, ih]

/-- C15. `Remove(name)`, as the specification describes it, removes the first
entry in queue order whose `Name` is `name`, adding its `Delay` to its
successor's when it has one; in absolute time it erases that entry and
changes no other entry, so every other cumulative delay is kept; and when no
entry has that name the queue is unchanged. -/
theorem Remove_first_match (q : Scheduler) (name : String) :
    (∀ (pre : List Event) (e next : Event) (post : List Event),
      q = pre ++ e :: next :: post → (∀ x ∈ pre, x.Name ≠ name) → e.Name = name →
        Scheduler.Remove q name = pre ++ { next with Delay := next.Delay + e.Delay } :: post) ∧
    (∀ (pre : List Event) (e : Event),
      q = pre ++ [e] → (∀ x ∈ pre, x.Name ≠ name) → e.Name = name →
        Scheduler.Remove q name = pre) ∧
    absolute 0 (Scheduler.Remove q name) =
      (absolute 0 q).eraseP (fun x => decide (x.Name = name)) ∧
    ((∀ x ∈ q, x.Name ≠ name) → Scheduler.Remove q name = q) := by
  refine ⟨?_, ?_, absolute_Remove q name 0, ?_⟩
  · intro pre e next post hq hpre he
    rw [hq, Remove_append pre name hpre]
    simp [Scheduler.Remove, he]
  · intro pre e hq hpre he
    rw [hq, Remove_append pre name hpre]
    simp [Scheduler.Remove, he]
  · intro hq
    have h := Remove_append q name hq []
    simpa [Scheduler.Remove] using h

/-- C15 at the test case "remove first only": events `{2,0,tick}`,
`{3,0,tock}`; drain `0` sends nothing, after `Tick(1)` `Remove("tick")` leaves
`[tock:2]`, drains `1` and `2` send nothing and drain `3` sends `tock`. -/
theorem Remove_first_match_witness :
    ((∀ (pre : List Event) (e next : Event) (post : List Event),
        ([⟨1, 0, "tick", []⟩, ⟨1, 0, "tock", []⟩] : Scheduler) = pre ++ e :: next :: post →
        (∀ x ∈ pre, x.Name ≠ "tick") → e.Name = "tick" →
          Scheduler.Remove [⟨1, 0, "tick", []⟩, ⟨1, 0, "tock", []⟩] "tick" =
            pre ++ { next with Delay := next.Delay + e.Delay } :: post) ∧
      (∀ (pre : List Event) (e : Event),
        ([⟨1, 0, "tick", []⟩, ⟨1, 0, "tock", []⟩] : Scheduler) = pre ++ [e] →
        (∀ x ∈ pre, x.Name ≠ "tick") → e.Name = "tick" →
          Scheduler.Remove [⟨1, 0, "tick", []⟩, ⟨1, 0, "tock", []⟩] "tick" = pre) ∧
      absolute 0 (Scheduler.Remove [⟨1, 0, "tick", []⟩, ⟨1, 0, "tock", []⟩] "tick") =
        (absolute 0 [⟨1, 0, "tick", []⟩, ⟨1, 0, "tock", []⟩]).eraseP
          (fun x => decide (x.Name = "tick")) ∧
      ((∀ x ∈ ([⟨1, 0, "tick", []⟩, ⟨1, 0, "tock", []⟩] : Scheduler), x.Name ≠ "tick") →
        Scheduler.Remove [⟨1, 0, "tick", []⟩, ⟨1, 0, "tock", []⟩] "tick" =
          [⟨1, 0, "tick", []⟩, ⟨1, 0, "tock", []⟩])) ∧
    Scheduler.putTriggeredEventsToChannel 2
        (SetUpQueue [⟨2, 0, "tick", []⟩, ⟨3, 0, "tock", []⟩]) =
      some ([], [⟨2, 0, "tick", []⟩, ⟨1, 0, "tock", []⟩]) ∧
    Scheduler.Remove (Scheduler.Tick [⟨2, 0, "tick", []⟩, ⟨1, 0, "tock", []⟩] 1) "tick" =
      [⟨2, 0, "tock", []⟩] ∧
    Scheduler.putTriggeredEventsToChannel 2 [⟨2, 0, "tock", []⟩] =
      some ([], [⟨2, 0, "tock", []⟩]) ∧
    Scheduler.putTriggeredEventsToChannel 2 (Scheduler.Tick [⟨2, 0, "tock", []⟩] 1) =
      some ([], [⟨1, 0, "tock", []⟩]) ∧
    Scheduler.putTriggeredEventsToChannel 2 (Scheduler.Tick [⟨1, 0, "tock", []⟩] 1) =
      some ([⟨0, 0, "tock", []⟩], []) :=
  ⟨Remove_first_match [⟨1, 0, "tick", []⟩, ⟨1, 0, "tock", []⟩] "tick", by decide, by decide,
    by decide, by decide, by decide⟩

end SchedulerGo
